import Mathlib

/-!
Verification development for the transaction-construction core in
`src/libwallet/src/internal/selection.rs` (vcash wallet).

The Rust code is shallowly embedded: identifiers, commitments, token types and
raw transaction bytes are represented as `Nat`; fallible operations return
`Option`; a Rust `panic` (e.g. `.unwrap()` on `None`, division by zero) is a
distinguished failure, modelled as `none` or an explicit `fault` constructor.
External collaborators (the storage backend, key derivation, the fee formula
from `grin_core::libtx`) are not part of the source file and are either passed
as explicit function parameters or modelled from the specification, as noted
on each definition.
-/

namespace VcashSelection

/-! ## Data model and operations -/

/-- Status of a wallet output (`OutputStatus` in the wallet types). -/
inductive OutputStatus where
  | Unconfirmed
  | Unspent
  | Locked
  | Spent
deriving DecidableEq, Repr

/-- A primary-asset coin record (`OutputData` in the wallet types).
Identifiers and cached commitments are represented as `Nat`. -/
structure OutputData where
  root_key_id : Nat
  key_id : Nat
  n_child : Nat
  commit : Option Nat
  mmr_index : Option Nat
  value : Nat
  status : OutputStatus
  height : Nat
  lock_height : Nat
  is_coinbase : Bool
  tx_log_entry : Option Nat
deriving DecidableEq, Repr

/-- A secondary-asset (token) coin record (`TokenOutputData`).
The token type tag is represented as `Nat`. -/
structure TokenOutputData where
  root_key_id : Nat
  key_id : Nat
  n_child : Nat
  commit : Option Nat
  token_type : Nat
  mmr_index : Option Nat
  value : Nat
  status : OutputStatus
  height : Nat
  lock_height : Nat
  is_token_issue : Bool
  tx_log_entry : Option Nat
deriving DecidableEq, Repr

/-- `outputs.iter().fold(0, |acc, x| acc + x.value)` — the total value of a
coin list, as computed in `select_from`. -/
def sumValues (outputs : List OutputData) : Nat :=
  outputs.foldl (fun acc x => acc + x.value) 0

/-- Token analogue of `sumValues` (`select_token_from`). -/
def sumTokenValues (outputs : List TokenOutputData) : Nat :=
  outputs.foldl (fun acc x => acc + x.value) 0

/-- The stateful `take_while` scan inside `select_from`: a running
`selected_amount` starts at 0; each coin is included as long as the running
sum *before* adding the coin is still below `amount`, and the coin's value is
added to the running sum regardless. -/
def selectFromGo (amount : Nat) (selected : Nat) : List OutputData → List OutputData
  | [] => []
  | o :: rest =>
      if selected < amount then o :: selectFromGo amount (selected + o.value) rest else []

/-- `select_from(amount, select_all, outputs)` (selection.rs lines 1162-1184):
if the total value of `outputs` is at least `amount`, return the whole list
when `select_all` is set, otherwise the inclusive greedy scan; return `None`
when the total is below `amount`. -/
def select_from (amount : Nat) (select_all : Bool) (outputs : List OutputData) :
    Option (List OutputData) :=
  let total := sumValues outputs
  if total ≥ amount then
    if select_all then some outputs else some (selectFromGo amount 0 outputs)
  else none

/-- Token analogue of `selectFromGo` (`select_token_from`, lines 1366-1392). -/
def selectTokenFromGo (amount : Nat) (selected : Nat) :
    List TokenOutputData → List TokenOutputData
  | [] => []
  | o :: rest =>
      if selected < amount then o :: selectTokenFromGo amount (selected + o.value) rest else []

/-- `select_token_from(amount, select_all, outputs)` (lines 1366-1392). -/
def select_token_from (amount : Nat) (select_all : Bool) (outputs : List TokenOutputData) :
    Option (List TokenOutputData) :=
  let total := sumTokenValues outputs
  if total ≥ amount then
    if select_all then some outputs else some (selectTokenFromGo amount 0 outputs)
  else none

/-- The length of the greedy scan's answer, as a recursive function. -/
def coverLen (amount selected : Nat) : List OutputData → Nat
  | [] => 0
  | o :: rest =>
      if selected < amount then coverLen amount (selected + o.value) rest + 1 else 0

/-- Rust `slice::windows(k)`: all contiguous sub-slices of length `k`, in list
order; the iterator is empty when the slice is shorter than `k`. (Rust panics
when `k = 0`; `select_coins` only reaches `windows` with `k = max_outputs`,
and the theorems below assume `1 ≤ max_outputs`.) -/
def listWindows {α : Type} (k : Nat) : List α → List (List α)
  | [] => []
  | a :: t =>
      if k ≤ t.length + 1 ∧ 0 < k then (a :: t).take k :: listWindows k t else []

/-- Insertion step of the stable ascending sort: `a` is placed before the
first element whose key is strictly greater, so elements with equal keys keep
their original relative order (as Rust's stable `sort_by_key` does). -/
def insertAsc {α : Type} (val : α → Nat) (a : α) : List α → List α
  | [] => [a]
  | b :: t => if val b < val a then b :: insertAsc val a t else a :: b :: t

/-- `eligible.sort_by_key(|out| out.value)`: a stable ascending sort by key,
embedded as structural insertion sort (extensionally equal to the stable sort
Rust performs, and evaluable by the kernel). -/
def sortAsc {α : Type} (val : α → Nat) : List α → List α
  | [] => []
  | a :: t => insertAsc val a (sortAsc val t)

/-- The eligible coin list of `select_coins` (lines 1110-1121): the wallet
pool filtered to the requested root identifier and the maturity/confirmation
eligibility gate, sorted ascending by value. `eligible_to_spend` lives in the
wallet types, outside this source file, and is passed as the abstract
predicate `elig` (with current height and minimum confirmations absorbed). -/
def eligibleSorted (wallet : List OutputData) (parent_key_id : Nat)
    (elig : OutputData → Bool) : List OutputData :=
  sortAsc (fun out => out.value)
    (wallet.filter fun out => out.root_key_id == parent_key_id && elig out)

/-- `select_coins` (lines 1094-1160): when the eligible count exceeds
`max_outputs`, try the covering search on each window of size `max_outputs`
in order, then on the whole eligible set (soft cap); otherwise run the
covering search on the whole set. On failure return the eligible set sorted
descending, truncated to `max_outputs`, as a diagnostic bound. The first
component is `max_available`, the eligible count. -/
def select_coins (wallet : List OutputData) (parent_key_id : Nat)
    (elig : OutputData → Bool) (amount max_outputs : Nat) (select_all : Bool) :
    Nat × List OutputData :=
  let eligible := eligibleSorted wallet parent_key_id elig
  let max_available := eligible.length
  if max_outputs < eligible.length then
    match (listWindows max_outputs eligible).findSome?
        (fun w => select_from amount select_all w) with
    | some outs => (max_available, outs)
    | none =>
        match select_from amount false eligible with
        | some outs => (max_available, outs)
        | none => (max_available, eligible.reverse.take max_outputs)
  else
    match select_from amount select_all eligible with
    | some outs => (max_available, outs)
    | none => (max_available, eligible.reverse.take max_outputs)

/-- Token analogue: the eligible token list of `select_token_coins`
(lines 1310-1323), additionally filtered by the asset-type tag. -/
def tokenEligibleSorted (walletTokens : List TokenOutputData) (parent_key_id : Nat)
    (token_type : Nat) (elig : TokenOutputData → Bool) : List TokenOutputData :=
  sortAsc (fun out => out.value)
    (walletTokens.filter fun out =>
      out.root_key_id == parent_key_id && out.token_type == token_type && elig out)

/-- `select_token_coins` (lines 1294-1364): same shape as `select_coins` over
the token pool. -/
def select_token_coins (walletTokens : List TokenOutputData) (parent_key_id : Nat)
    (token_type : Nat) (elig : TokenOutputData → Bool) (amount max_outputs : Nat)
    (select_all : Bool) : Nat × List TokenOutputData :=
  let eligible := tokenEligibleSorted walletTokens parent_key_id token_type elig
  let max_available := eligible.length
  if max_outputs < eligible.length then
    match (listWindows max_outputs eligible).findSome?
        (fun w => select_token_from amount select_all w) with
    | some outs => (max_available, outs)
    | none =>
        match select_token_from amount false eligible with
        | some outs => (max_available, outs)
        | none => (max_available, eligible.reverse.take max_outputs)
  else
    match select_token_from amount select_all eligible with
    | some outs => (max_available, outs)
    | none => (max_available, eligible.reverse.take max_outputs)

/-- Concrete wallet for the C7 witness: values 5, 5, 5, 30 (the spec's window
fallback example, cap 2, target 40). -/
def exWalletW : List OutputData :=
  [ ⟨0, 1, 1, none, none, 5, .Unspent, 0, 0, false, none⟩,
    ⟨0, 2, 2, none, none, 5, .Unspent, 0, 0, false, none⟩,
    ⟨0, 3, 3, none, none, 5, .Unspent, 0, 0, false, none⟩,
    ⟨0, 4, 4, none, none, 30, .Unspent, 0, 0, false, none⟩ ]

/-- A transaction element (`build::Append` closure), by shape and payload. -/
inductive Part where
  | input (value key_id : Nat)
  | coinbase_input (value key_id : Nat)
  | output (value key_id : Nat)
  | token_input (value token_type : Nat) (is_issue : Bool) (key_id : Nat)
  | token_output (value token_type : Nat) (is_issue : Bool) (key_id : Nat)
deriving DecidableEq, Repr

/-- The change-building loop `for x in 0..num_change_outputs` shared by
`inputs_and_change` (lines 989-1001) and `token_inputs_and_change`
(lines 1064-1081), iterating over the index list: each iteration derives a
fresh child key (`wallet.next_child(..).unwrap()` — a panic, modelled as
`none`, when the allocation fails) and emits `part_change` for all but the
last index and `part_change + remainder_change` for the last. `mkPart` is the
element constructor (`build::output` or `build::token_output`). -/
def changeOutputsFor (nextChild : Nat → Option Nat) (mkPart : Nat → Nat → Part)
    (part_change remainder_change n : Nat) :
    List Nat → Option (List (Nat × Nat × Option Nat) × List Part)
  | [] => some ([], [])
  | x :: xs =>
      let change_amount := if x = n - 1 then part_change + remainder_change else part_change
      match nextChild x with
      | none => none
      | some change_key =>
          match changeOutputsFor nextChild mkPart part_change remainder_change n xs with
          | none => none
          | some (cads, ps) =>
              some ((change_amount, change_key, none) :: cads,
                    mkPart change_amount change_key :: ps)

/-- `inputs_and_change` (lines 934-1005): total over the coins, change
`total - amount - fee` (u64 subtraction: underflow is a panic, `none`), one
input element per coin when `include_inputs_in_sum` (a coinbase-input element
for coinbase coins), then — when change is non-zero — the change split with
`part_change = change / num_change_outputs` and
`remainder_change = change % part_change` (division by zero when
`part_change = 0`, a panic, `none`). -/
def inputs_and_change (coins : List OutputData) (nextChild : Nat → Option Nat)
    (amount fee num_change_outputs : Nat) (include_inputs_in_sum : Bool) :
    Option (List Part × List (Nat × Nat × Option Nat)) :=
  let total := sumValues coins
  if total < amount + fee then none
  else
    let change := total - amount - fee
    let inputParts :=
      if include_inputs_in_sum then
        coins.map fun coin =>
          if coin.is_coinbase then Part.coinbase_input coin.value coin.key_id
          else Part.input coin.value coin.key_id
      else []
    if change = 0 then some (inputParts, [])
    else
      let part_change := change / num_change_outputs
      if part_change = 0 then none
      else
        let remainder_change := change % part_change
        match changeOutputsFor nextChild (fun amt key => Part.output amt key)
            part_change remainder_change num_change_outputs
            (List.range num_change_outputs) with
        | none => none
        | some (cads, ps) => some (inputParts ++ ps, cads)

/-- `token_inputs_and_change` (lines 1008-1085): same shape, fee-less
(`change = total - amount`), token input/output elements. -/
def token_inputs_and_change (coins : List TokenOutputData) (nextChild : Nat → Option Nat)
    (amount token_type num_change_outputs : Nat) (include_inputs_in_sum : Bool) :
    Option (List Part × List (Nat × Nat × Option Nat)) :=
  let total := sumTokenValues coins
  if total < amount then none
  else
    let change := total - amount
    let inputParts :=
      if include_inputs_in_sum then
        coins.map fun coin =>
          Part.token_input coin.value token_type coin.is_token_issue coin.key_id
      else []
    if change = 0 then some (inputParts, [])
    else
      let part_change := change / num_change_outputs
      if part_change = 0 then none
      else
        let remainder_change := change % part_change
        match changeOutputsFor nextChild
            (fun amt key => Part.token_output amt token_type false key)
            part_change remainder_change num_change_outputs
            (List.range num_change_outputs) with
        | none => none
        | some (cads, ps) => some (inputParts ++ ps, cads)

/-- Modelled from the spec: `DEFAULT_BASE_FEE` comes from
`grin_core::libtx`, outside this source file. Its concrete magnitude is
irrelevant to every claim proved here. -/
def DEFAULT_BASE_FEE : Nat := 1000000

/-- Modelled from the spec: `tx_fee` lives in `grin_core::libtx`, outside
this source file. Per the spec (§4.2), the fee is sized from the primary
input/output/kernel counts, while the secondary-asset input/output/kernel
counts are passed through but "never alter the fee value the sender pays,
since secondary-asset transfers are fee-less". The weight coefficients follow
the usual grin-style body weight; their exact values are irrelevant to every
claim proved here. -/
def tx_fee (input_len output_len kernel_len : Nat)
    (_token_input_len _token_output_len _token_kernel_len : Nat)
    (base_fee : Option Nat) : Nat :=
  (base_fee.getD DEFAULT_BASE_FEE) * Nat.max 1 (input_len + 4 * output_len + kernel_len)

/-- The wallet error kinds reached by the embedded functions
(`ErrorKind::NotEnoughFunds`, `ErrorKind::PaymentProof`; the human-readable
display strings of `NotEnoughFunds` are derived from the two magnitudes and
are not modelled separately). -/
inductive WalletError where
  | notEnoughFunds (available needed : Nat)
  | paymentProof
  | generic
deriving DecidableEq, Repr

/-- Result of `select_coins_and_fee`: the selected coins with total, amount
and fee, or a wallet error. -/
inductive FeeOutcome where
  | ok (coins : List OutputData) (total amount fee : Nat)
  | err (e : WalletError)
deriving DecidableEq, Repr

/-- The fee re-solving `while` loop of `select_coins_and_fee` (lines
835-869), with explicit fuel; `none` marks fuel exhaustion and is proved
unreachable below. `feeOf k` is the fee recomputed for `k` selected inputs
(`tx_fee(k, num_outputs, 1, token counts…)` at the call site). `max_outputs`
here is the binding shadowed on line 763: the eligible count returned by the
first selection, which both the cap test and every re-selection use. -/
def feeLoop (wallet : List OutputData) (parent : Nat) (elig : OutputData → Bool)
    (amount max_outputs : Nat) (select_all : Bool) (feeOf : Nat → Nat) :
    Nat → List OutputData → Nat → Nat → Nat → Option FeeOutcome
  | 0, _, _, _, _ => none
  | fuel + 1, coins, fee, total, amount_with_fee =>
      if total < amount_with_fee then
        if coins.length = max_outputs then
          some (.err (.notEnoughFunds total amount_with_fee))
        else
          feeLoop wallet parent elig amount max_outputs select_all feeOf fuel
            (select_coins wallet parent elig amount_with_fee max_outputs select_all).2
            (feeOf (select_coins wallet parent elig
              amount_with_fee max_outputs select_all).2.length)
            (sumValues (select_coins wallet parent elig
              amount_with_fee max_outputs select_all).2)
            (amount + feeOf (select_coins wallet parent elig
              amount_with_fee max_outputs select_all).2.length)
      else some (.ok coins total amount fee)

/-- `select_coins_and_fee` (lines 734-872). Note the Rust shadowing on line
763: after the first selection, `max_outputs` names `max_available` (the
eligible count); the cap tests `coins.len() == max_outputs` and the loop's
re-selections all use that shadowed value. The loop receives fuel
`max_available + 2`, proved sufficient below. -/
def select_coins_and_fee (wallet : List OutputData) (parent : Nat)
    (elig : OutputData → Bool) (amount max_outputs change_outputs : Nat)
    (select_all : Bool) (token_inputs token_outputs : Nat) : Option FeeOutcome :=
  let min_fee := DEFAULT_BASE_FEE
  let sel := select_coins wallet parent elig (amount + min_fee) max_outputs select_all
  let max_outputs2 := sel.1
  let coins := sel.2
  let output_len := if amount = 0 then 0 else 1
  let token_kernel_len := if token_outputs = 0 then 0 else 1
  let fee := tx_fee coins.length output_len 1 token_inputs token_outputs token_kernel_len none
  let total := sumValues coins
  let amount_with_fee := amount + fee
  if total = 0 then some (.err (.notEnoughFunds 0 amount_with_fee))
  else if total < amount_with_fee ∧ coins.length = max_outputs2 then
    some (.err (.notEnoughFunds total amount_with_fee))
  else
    let num_outputs := change_outputs + output_len
    if total ≠ amount_with_fee then
      let feeOf := fun k =>
        tx_fee k num_outputs 1 token_inputs token_outputs token_kernel_len none
      let fee2 := feeOf coins.length
      feeLoop wallet parent elig amount max_outputs2 select_all feeOf
        (max_outputs2 + 2) coins fee2 total (amount + fee2)
    else some (.ok coins total amount fee)

/-- Concrete wallet for the C4 witness: values 10, 20, 30, 50. -/
def exCoinsW : List OutputData :=
  [ ⟨0, 1, 1, none, none, 10, .Unspent, 0, 0, false, none⟩,
    ⟨0, 2, 2, none, none, 20, .Unspent, 0, 0, false, none⟩,
    ⟨0, 3, 3, none, none, 30, .Unspent, 0, 0, false, none⟩,
    ⟨0, 4, 4, none, none, 50, .Unspent, 0, 0, false, none⟩ ]

/-- Result of `select_token_coins_and_fee`: the selected token coins with
total and amount, or a wallet error. -/
inductive TokenFeeOutcome where
  | ok (coins : List TokenOutputData) (total amount : Nat)
  | err (e : WalletError)
deriving DecidableEq, Repr

/-- `select_token_coins_and_fee` (lines 875-931): one token selection and no
fee fixed point. Errors with `NotEnoughFunds` when the selected total is
zero, or when the total is below the amount *and* the selected count equals
the (shadowed) `max_outputs`, i.e. the eligible count; otherwise returns the
selection as-is. -/
def select_token_coins_and_fee (walletTokens : List TokenOutputData) (parent : Nat)
    (token_type : Nat) (elig : TokenOutputData → Bool) (amount max_outputs : Nat)
    (select_all : Bool) : TokenFeeOutcome :=
  let sel := select_token_coins walletTokens parent token_type elig amount max_outputs
    select_all
  let total := sumTokenValues sel.2
  if total = 0 then .err (.notEnoughFunds 0 amount)
  else if total < amount ∧ sel.2.length = sel.1 then .err (.notEnoughFunds total amount)
  else .ok sel.2 total amount

/-- Concrete token pool for the C5 counterexample: three coins of value 1. -/
def exTokenPool : List TokenOutputData :=
  [ ⟨0, 1, 1, none, 7, none, 1, .Unspent, 0, 0, false, none⟩,
    ⟨0, 2, 2, none, 7, none, 1, .Unspent, 0, 0, false, none⟩,
    ⟨0, 3, 3, none, 7, none, 1, .Unspent, 0, 0, false, none⟩ ]

/-- Concrete token pool for the C5 witness: values 5 and 30. -/
def exTokenPoolB : List TokenOutputData :=
  [ ⟨0, 1, 1, none, 7, none, 5, .Unspent, 0, 0, false, none⟩,
    ⟨0, 2, 2, none, 7, none, 30, .Unspent, 0, 0, false, none⟩ ]

/-- Transaction log entry kinds (`TxLogEntryType`; the confirmed/cancelled
kinds are not reached by this file's code). -/
inductive TxLogEntryType where
  | TxReceived
  | TxSent
deriving DecidableEq, Repr

/-- Token transaction log entry kinds (`TokenTxLogEntryType`). -/
inductive TokenTxLogEntryType where
  | TokenIssue
  | TokenTxSent
  | TokenTxReceived
deriving DecidableEq, Repr

/-- Stored payment-proof block (`StoredProofInfo`); addresses are `Nat`. -/
structure StoredProofInfo where
  receiver_address : Nat
  receiver_signature : Option Nat
  sender_address : Nat
  sender_address_path : Nat
  sender_signature : Option Nat
deriving DecidableEq, Repr

/-- Primary history record (`TxLogEntry`); `TxLogEntry::new` zeroes the
counts/amounts and leaves the optional fields `None`. The stored-tx pointer
(`"{slate_id}.vcashtx"`) is represented by the slate id itself. -/
structure TxLogEntry where
  parent_key_id : Nat
  tx_type : TxLogEntryType
  id : Nat
  tx_slate_id : Option Nat
  stored_tx : Option Nat
  fee : Option Nat
  ttl_cutoff_height : Option Nat
  kernel_excess : Option Nat
  kernel_lookup_min_height : Option Nat
  num_inputs : Nat
  amount_debited : Nat
  num_outputs : Nat
  amount_credited : Nat
  payment_proof : Option StoredProofInfo
deriving DecidableEq, Repr

/-- Secondary-asset history record (`TokenTxLogEntry`). -/
structure TokenTxLogEntry where
  parent_key_id : Nat
  tx_type : TokenTxLogEntryType
  id : Nat
  tx_slate_id : Option Nat
  token_type : Nat
  stored_tx : Option Nat
  fee : Option Nat
  ttl_cutoff_height : Option Nat
  kernel_excess : Option Nat
  kernel_lookup_min_height : Option Nat
  num_inputs : Nat
  amount_debited : Nat
  num_token_inputs : Nat
  token_amount_debited : Nat
  num_outputs : Nat
  amount_credited : Nat
  num_token_outputs : Nat
  token_amount_credited : Nat
  payment_proof : Option StoredProofInfo
deriving DecidableEq, Repr

/-- The negotiation-document fields read by `lock_tx_context` and
`build_recipient_output`. Two external computations are carried as fields:
`calcExcess` is `some e` when `slate.calc_excess(..)` returns `Ok(e)` (the
`Err` case is deliberately swallowed by the source), and `tx` is
`some bytes` when `slate.tx_or_err()` succeeds. -/
structure Slate where
  id : Nat
  amount : Nat
  fee : Nat
  token_type : Option Nat
  ttl_cutoff_height : Nat
  payment_proof : Option (Nat × Option Nat)
  calcExcess : Option Nat
  tx : Option Nat
deriving DecidableEq, Repr

/-- The fields of the private `Context` that the finalize step reads: parent
identifier, amount and fee, the registered (identifier, mmr index, value)
triples for inputs/outputs of both assets, and the optional payment-proof
derivation index. The blinding secrets and nonces never touch the durable
state and are omitted. -/
structure Context where
  parent_key_id : Nat
  amount : Nat
  fee : Nat
  inputs : List (Nat × Option Nat × Nat)
  outputs : List (Nat × Option Nat × Nat)
  token_inputs : List (Nat × Option Nat × Nat)
  token_outputs : List (Nat × Option Nat × Nat)
  payment_proof_derivation_index : Option Nat
deriving DecidableEq, Repr

/-- The durable wallet state visible to `lock_tx_context` and
`build_recipient_output`: both coin pools, both history logs, the stored raw
transactions keyed by slate id, and the next history-record id. -/
structure WalletState where
  outputs : List OutputData
  token_outputs : List TokenOutputData
  tx_logs : List TxLogEntry
  token_tx_logs : List TokenTxLogEntry
  stored_txs : List (Nat × Nat)
  next_log_id : Nat
deriving DecidableEq, Repr

/-- Final status of a finalize/recipient run. `fault` is a Rust panic
(`.unwrap()` on a missing backend lookup). -/
inductive RunResult where
  | ok
  | err (e : WalletError)
  | fault
deriving DecidableEq, Repr

/-- A finalize run: the sequence of visible durable states, in order (the
initial state; then, if the batch commits, the committed state; then, if the
raw transaction is stored, the final state), with the call's result. -/
structure LockRun where
  visible : List WalletState
  result : RunResult
deriving DecidableEq, Repr

/-- `match slate.ttl_cutoff_height { 0 => None, n => Some(n) }` — the
time-to-live cutoff written into every history record. -/
def ttlOpt (n : Nat) : Option Nat :=
  match n with
  | 0 => none
  | n => some n

/-- The input-locking loop of `lock_tx_context` (lines 304-309 and 417-422):
each registered input is fetched from the backend —
`batch.get(&id.0, &id.1).unwrap()`, a panic (`none`) when the coin is
missing — tagged with the history-record id, and transitioned to `Locked`;
the debited total accumulates the fetched coins' values. -/
def lockInputs (logId : Nat) :
    List OutputData → List (Nat × Option Nat × Nat) → Option (List OutputData × Nat)
  | outputs, [] => some (outputs, 0)
  | outputs, i :: rest =>
      match outputs.find? (fun o => o.key_id == i.1) with
      | none => none
      | some coin =>
          match lockInputs logId
              (outputs.map fun o =>
                if o.key_id == i.1 then
                  { o with status := OutputStatus.Locked, tx_log_entry := some logId }
                else o) rest with
          | none => none
          | some (outs, debited) => some (outs, coin.value + debited)

/-- Token analogue of `lockInputs` (lines 313-319). -/
def lockTokenInputs (logId : Nat) :
    List TokenOutputData → List (Nat × Option Nat × Nat) →
      Option (List TokenOutputData × Nat)
  | outputs, [] => some (outputs, 0)
  | outputs, i :: rest =>
      match outputs.find? (fun o => o.key_id == i.1) with
      | none => none
      | some coin =>
          match lockTokenInputs logId
              (outputs.map fun o =>
                if o.key_id == i.1 then
                  { o with status := OutputStatus.Locked, tx_log_entry := some logId }
                else o) rest with
          | none => none
          | some (outs, debited) => some (outs, coin.value + debited)

/-- The change-output persist loop (lines 349-366 and 453-470): one
`Unconfirmed` coin per registered change output, tagged with the history
record id; `n_child` (`id.to_path().last_path_index()`) is represented by
the identifier itself, and the cached commit by `calcCommit value key_id`. -/
def changeOutputRecords (calcCommit : Nat → Nat → Option Nat)
    (parent height logId : Nat) (outs : List (Nat × Option Nat × Nat)) :
    List OutputData :=
  outs.map fun o =>
    { root_key_id := parent, key_id := o.1, n_child := o.1,
      commit := calcCommit o.2.2 o.1, mmr_index := none, value := o.2.2,
      status := OutputStatus.Unconfirmed, height := height, lock_height := 0,
      is_coinbase := false, tx_log_entry := some logId }

/-- Token analogue of `changeOutputRecords` (lines 369-387); the
`is_token_issue` flag records whether the history kind is `TokenIssue`. -/
def tokenChangeRecords (calcCommit : Nat → Nat → Option Nat) (token_type : Nat)
    (isIssue : Bool) (parent height logId : Nat)
    (outs : List (Nat × Option Nat × Nat)) : List TokenOutputData :=
  outs.map fun o =>
    { root_key_id := parent, key_id := o.1, n_child := o.1,
      commit := calcCommit o.2.2 o.1, token_type := token_type, mmr_index := none,
      value := o.2.2, status := OutputStatus.Unconfirmed, height := height,
      lock_height := 0, is_token_issue := isIssue, tx_log_entry := some logId }

/-- Payment-proof attachment (lines 322-346 and 426-450): when the slate
carries a payment-proof request, a missing
`context.payment_proof_derivation_index` is the typed `PaymentProof` error;
otherwise the sender address is derived externally (`senderAddress`). -/
def buildPaymentProof (senderAddress : Nat → Nat) (slate : Slate) (ctx : Context) :
    Except WalletError (Option StoredProofInfo) :=
  match slate.payment_proof with
  | none => Except.ok none
  | some p =>
      match ctx.payment_proof_derivation_index with
      | none => Except.error WalletError.paymentProof
      | some idx =>
          Except.ok (some
            { receiver_address := p.1, receiver_signature := p.2,
              sender_address := senderAddress idx, sender_address_path := idx,
              sender_signature := none })

/-- The primary history record written by the non-token finalize branch
(lines 397-424 and 452-471). -/
def mkSentLog (slate : Slate) (ctx : Context) (current_height logId : Nat)
    (ov : Option Nat) (pp : Option StoredProofInfo) (deb : Nat) : TxLogEntry :=
  { parent_key_id := ctx.parent_key_id, tx_type := TxLogEntryType.TxSent, id := logId,
    tx_slate_id := some slate.id, stored_tx := some slate.id, fee := some ctx.fee,
    ttl_cutoff_height := ttlOpt slate.ttl_cutoff_height,
    kernel_excess := match ov with | some e => some e | none => slate.calcExcess,
    kernel_lookup_min_height := some current_height,
    num_inputs := ctx.inputs.length, amount_debited := deb,
    num_outputs := ctx.outputs.length,
    amount_credited := (ctx.outputs.map fun o => o.2.2).sum,
    payment_proof := pp }

/-- The token history record written by the token finalize branch (lines
278-300 and 302-388): its kind is `TokenIssue` when no token inputs are
registered and `TokenTxSent` otherwise. -/
def mkTokenSentLog (slate : Slate) (token_type : Nat) (ctx : Context)
    (current_height logId : Nat) (ov : Option Nat) (pp : Option StoredProofInfo)
    (deb tdeb : Nat) : TokenTxLogEntry :=
  { parent_key_id := ctx.parent_key_id,
    tx_type := if ctx.token_inputs.length = 0 then TokenTxLogEntryType.TokenIssue
      else TokenTxLogEntryType.TokenTxSent,
    id := logId, tx_slate_id := some slate.id, token_type := token_type,
    stored_tx := some slate.id, fee := some ctx.fee,
    ttl_cutoff_height := ttlOpt slate.ttl_cutoff_height,
    kernel_excess := match ov with | some e => some e | none => slate.calcExcess,
    kernel_lookup_min_height := some current_height,
    num_inputs := ctx.inputs.length, amount_debited := deb,
    num_token_inputs := ctx.token_inputs.length, token_amount_debited := tdeb,
    num_outputs := ctx.outputs.length,
    amount_credited := (ctx.outputs.map fun o => o.2.2).sum,
    num_token_outputs := ctx.token_outputs.length,
    token_amount_credited := (ctx.token_outputs.map fun o => o.2.2).sum,
    payment_proof := pp }

/-- The committed state of the non-token finalize branch: locked inputs,
persisted change outputs, one `TxSent` record, next log id advanced — all
visible at once when `batch.commit()` lands. -/
def commitSentState (calcCommit : Nat → Nat → Option Nat) (w : WalletState)
    (slate : Slate) (current_height : Nat) (ctx : Context) (ov : Option Nat)
    (pp : Option StoredProofInfo) (outs1 : List OutputData) (deb : Nat) :
    WalletState :=
  { outputs := outs1 ++
      changeOutputRecords calcCommit ctx.parent_key_id current_height w.next_log_id
        ctx.outputs,
    token_outputs := w.token_outputs,
    tx_logs := mkSentLog slate ctx current_height w.next_log_id ov pp deb :: w.tx_logs,
    token_tx_logs := w.token_tx_logs,
    stored_txs := w.stored_txs,
    next_log_id := w.next_log_id + 1 }

/-- The committed state of the token finalize branch: both asset's inputs
locked, both asset's change outputs persisted, one token record. -/
def commitTokenState (calcCommit : Nat → Nat → Option Nat) (w : WalletState)
    (slate : Slate) (token_type current_height : Nat) (ctx : Context)
    (ov : Option Nat) (pp : Option StoredProofInfo) (outs1 : List OutputData)
    (deb : Nat) (touts1 : List TokenOutputData) (tdeb : Nat) : WalletState :=
  { outputs := outs1 ++
      changeOutputRecords calcCommit ctx.parent_key_id current_height w.next_log_id
        ctx.outputs,
    token_outputs := touts1 ++
      tokenChangeRecords calcCommit token_type (ctx.token_inputs.length = 0)
        ctx.parent_key_id current_height w.next_log_id ctx.token_outputs,
    tx_logs := w.tx_logs,
    token_tx_logs := mkTokenSentLog slate token_type ctx current_height w.next_log_id
      ov pp deb tdeb :: w.token_tx_logs,
    stored_txs := w.stored_txs,
    next_log_id := w.next_log_id + 1 }

/-- The tail of a finalize run after `batch.commit()` (lines 389, 472-476):
the committed state is visible; then `wallet.store_tx(&slate.id, tx_or_err?)`
— outside the batch — appends the raw bytes, or errors when the slate holds
no transaction, leaving the committed state as final. -/
def finishRun (slate : Slate) (w c : WalletState) : LockRun :=
  match slate.tx with
  | none => ⟨[w, c], RunResult.err WalletError.generic⟩
  | some bytes =>
      ⟨[w, c, { c with stored_txs := (slate.id, bytes) :: c.stored_txs }],
        RunResult.ok⟩

/-- `lock_tx_context` (lines 223-477): the finalize step. Writes inside the
batch become visible only at the commit; the raw-transaction store follows
as a separate write. `calcCommit` and `senderAddress` stand for the external
commitment cache and address derivation. -/
def lock_tx_context (calcCommit : Nat → Nat → Option Nat)
    (senderAddress : Nat → Nat) (w : WalletState) (slate : Slate)
    (current_height : Nat) (ctx : Context) (ov : Option Nat) : LockRun :=
  match slate.token_type with
  | some tt =>
      match lockInputs w.next_log_id w.outputs ctx.inputs with
      | none => ⟨[w], RunResult.fault⟩
      | some (outs1, deb) =>
          match lockTokenInputs w.next_log_id w.token_outputs ctx.token_inputs with
          | none => ⟨[w], RunResult.fault⟩
          | some (touts1, tdeb) =>
              match buildPaymentProof senderAddress slate ctx with
              | Except.error e => ⟨[w], RunResult.err e⟩
              | Except.ok pp =>
                  finishRun slate w
                    (commitTokenState calcCommit w slate tt current_height ctx ov pp
                      outs1 deb touts1 tdeb)
  | none =>
      match lockInputs w.next_log_id w.outputs ctx.inputs with
      | none => ⟨[w], RunResult.fault⟩
      | some (outs1, deb) =>
          match buildPaymentProof senderAddress slate ctx with
          | Except.error e => ⟨[w], RunResult.err e⟩
          | Except.ok pp =>
              finishRun slate w
                (commitSentState calcCommit w slate current_height ctx ov pp outs1 deb)

/-- A recipient-build run: visible states, result, the fresh key and the
written history record (primary or token), mirroring the source's return
value. -/
structure RecipientRun where
  visible : List WalletState
  result : RunResult
  key_id : Option Nat
  tx_entry : Option TxLogEntry
  token_entry : Option TokenTxLogEntry
deriving DecidableEq, Repr

/-- `build_recipient_output` (lines 482-618): allocates a fresh key
(`next_available_key(..).unwrap()` — a panic, `fault`, when the allocation
fails), then persists, in one batch, a single `Unconfirmed` output for the
slate amount together with a Received-kind history record (token or primary
per the slate's asset tag), and returns the key and the record. -/
def build_recipient_output (calcCommit : Nat → Nat → Option Nat)
    (nextKey : Option Nat) (w : WalletState) (slate : Slate)
    (current_height parent_key_id : Nat) : RecipientRun :=
  match nextKey with
  | none => ⟨[w], RunResult.fault, none, none, none⟩
  | some key_id =>
      match slate.token_type with
      | some tt =>
          let t : TokenTxLogEntry :=
            { parent_key_id := parent_key_id,
              tx_type := TokenTxLogEntryType.TokenTxReceived, id := w.next_log_id,
              tx_slate_id := some slate.id, token_type := tt, stored_tx := none,
              fee := none, ttl_cutoff_height := ttlOpt slate.ttl_cutoff_height,
              kernel_excess := slate.calcExcess,
              kernel_lookup_min_height := some current_height,
              num_inputs := 0, amount_debited := 0, num_token_inputs := 0,
              token_amount_debited := 0, num_outputs := 0, amount_credited := 0,
              num_token_outputs := 1, token_amount_credited := slate.amount,
              payment_proof := none }
          ⟨[w, { w with
              token_outputs := w.token_outputs ++
                [{ root_key_id := parent_key_id, key_id := key_id, n_child := key_id,
                   commit := calcCommit slate.amount key_id, token_type := tt,
                   mmr_index := none, value := slate.amount,
                   status := OutputStatus.Unconfirmed, height := current_height,
                   lock_height := 0, is_token_issue := false,
                   tx_log_entry := some w.next_log_id }],
              token_tx_logs := t :: w.token_tx_logs,
              next_log_id := w.next_log_id + 1 }],
            RunResult.ok, some key_id, none, some t⟩
      | none =>
          let t : TxLogEntry :=
            { parent_key_id := parent_key_id, tx_type := TxLogEntryType.TxReceived,
              id := w.next_log_id, tx_slate_id := some slate.id, stored_tx := none,
              fee := none, ttl_cutoff_height := ttlOpt slate.ttl_cutoff_height,
              kernel_excess := slate.calcExcess,
              kernel_lookup_min_height := some current_height,
              num_inputs := 0, amount_debited := 0, num_outputs := 1,
              amount_credited := slate.amount, payment_proof := none }
          ⟨[w, { w with
              outputs := w.outputs ++
                [{ root_key_id := parent_key_id, key_id := key_id, n_child := key_id,
                   commit := calcCommit slate.amount key_id, mmr_index := none,
                   value := slate.amount, status := OutputStatus.Unconfirmed,
                   height := current_height, lock_height := 0, is_coinbase := false,
                   tx_log_entry := some w.next_log_id }],
              tx_logs := t :: w.tx_logs,
              next_log_id := w.next_log_id + 1 }],
            RunResult.ok, some key_id, some t, none⟩

/-- Fixture: a wallet holding one unspent coin of value 10 at identifier 1. -/
def exW0 : WalletState :=
  ⟨[⟨0, 1, 1, none, none, 10, .Unspent, 0, 0, false, none⟩], [], [], [], [], 0⟩

/-- Fixture: a non-token slate (id 1, ttl 0) carrying assembled bytes 77. -/
def exSlateL : Slate := ⟨1, 5, 1, none, 0, none, none, some 77⟩

/-- Fixture: a context registering the present coin 1 as input. -/
def exCtxL : Context := ⟨0, 5, 1, [(1, none, 10)], [], [], [], none⟩

/-- Fixture: a context registering the absent identifier 2 as input. -/
def exCtxMissing : Context := ⟨0, 5, 1, [(2, none, 10)], [], [], [], none⟩

/-- Fixture: the empty wallet. -/
def exWEmpty : WalletState := ⟨[], [], [], [], [], 0⟩

/-- Fixture: a token slate (token type 7, ttl 0) carrying bytes 77. -/
def exSlateT : Slate := ⟨1, 5, 0, some 7, 0, none, none, some 77⟩

/-- Fixture: a token context with no inputs at all (a mint/issue build). -/
def exCtxT : Context := ⟨0, 5, 0, [], [], [], [], none⟩

/-- Fixture: a non-token slate with non-zero ttl cutoff 9. -/
def exSlateR : Slate := ⟨1, 5, 1, none, 9, none, none, some 77⟩

/-- The recipient history record written for `exSlateR` on the empty wallet:
ttl cutoff `some 9`. -/
def exEntryR : TxLogEntry :=
  ⟨0, TxLogEntryType.TxReceived, 0, some 1, none, none, some 9, none, some 3,
    0, 0, 1, 5, none⟩

/-- Concrete coins used by witnesses: values 10, 20, 30, 50 (the spec's
covering-minimality example). -/
def exCoins : List OutputData :=
  [ ⟨0, 1, 1, none, none, 10, .Unspent, 0, 0, false, none⟩,
    ⟨0, 2, 2, none, none, 20, .Unspent, 0, 0, false, none⟩,
    ⟨0, 3, 3, none, none, 30, .Unspent, 0, 0, false, none⟩,
    ⟨0, 4, 4, none, none, 50, .Unspent, 0, 0, false, none⟩ ]

/-! ## Lemmas and claim theorems -/

theorem foldl_add_value (l : List OutputData) (n : Nat) :
    l.foldl (fun acc x => acc + x.value) n = n + sumValues l := by
  induction l generalizing n with
  | nil => simp [sumValues]
  | cons o rest ih =>
      simp only [List.foldl_cons, sumValues] at *
      rw [ih (n + o.value), ih (0 + o.value)]
      omega

theorem sumValues_nil : sumValues [] = 0 := rfl

theorem sumValues_cons (o : OutputData) (l : List OutputData) :
    sumValues (o :: l) = o.value + sumValues l := by
  simp only [sumValues, List.foldl_cons, Nat.zero_add]
  exact foldl_add_value l o.value

theorem selectFromGo_eq_take (amount selected : Nat) (l : List OutputData) :
    selectFromGo amount selected l = l.take (coverLen amount selected l) := by
  induction l generalizing selected with
  | nil => rfl
  | cons o rest ih =>
      simp only [selectFromGo, coverLen]
      by_cases h : selected < amount
      · simp [h, ih]
      · simp [h]

theorem coverLen_le_length (amount selected : Nat) (l : List OutputData) :
    coverLen amount selected l ≤ l.length := by
  induction l generalizing selected with
  | nil => simp [coverLen]
  | cons o rest ih =>
      simp only [coverLen]
      by_cases h : selected < amount
      · simp only [h, if_true, List.length_cons]
        exact Nat.succ_le_succ (ih _)
      · simp [h]

/-- Before the scan's stopping point, every strict prefix still sums below the
target (offset by the initial running sum). -/
theorem coverLen_strict (amount selected : Nat) (l : List OutputData) :
    ∀ j, j < coverLen amount selected l → selected + sumValues (l.take j) < amount := by
  induction l generalizing selected with
  | nil => intro j hj; simp [coverLen] at hj
  | cons o rest ih =>
      intro j hj
      simp only [coverLen] at hj
      by_cases h : selected < amount
      · simp only [h, if_true] at hj
        cases j with
        | zero => simpa [sumValues_nil] using h
        | succ j' =>
            have := ih (selected + o.value) j' (Nat.lt_of_succ_lt_succ hj)
            simp only [List.take_succ_cons, sumValues_cons]
            omega
      · simp [h] at hj

/-- If the whole list covers the target (offset by the initial running sum),
then so does the scan's answer: the crossing element is included. -/
theorem coverLen_covers (amount selected : Nat) (l : List OutputData)
    (h : amount ≤ selected + sumValues l) :
    amount ≤ selected + sumValues (l.take (coverLen amount selected l)) := by
  induction l generalizing selected with
  | nil => simpa [sumValues_nil] using h
  | cons o rest ih =>
      simp only [coverLen]
      by_cases hs : selected < amount
      · simp only [hs, if_true, List.take_succ_cons, sumValues_cons]
        have := ih (selected + o.value) (by rw [sumValues_cons] at h; omega)
        omega
      · simp only [hs, if_false, List.take_zero, sumValues_nil]
        omega

/-- C3: for a list of coins sorted ascending by value and a target `t`, the
covering search `select_from` with `select_all = false` returns `none` exactly
when the total value is below `t`; otherwise it returns the shortest ascending
prefix whose sum reaches `t` — it includes the crossing element (its own sum
reaches `t`) and includes no coin once the sum before that coin already
reached `t` (every strictly shorter prefix sums below `t`). -/
theorem select_from_shortest_covering (outputs : List OutputData) (t : Nat)
    (_hsorted : outputs.Pairwise (fun a b => a.value ≤ b.value)) :
    (select_from t false outputs = none ↔ sumValues outputs < t) ∧
    (t ≤ sumValues outputs →
      ∃ k, k ≤ outputs.length ∧
        select_from t false outputs = some (outputs.take k) ∧
        t ≤ sumValues (outputs.take k) ∧
        ∀ j, j < k → sumValues (outputs.take j) < t) := by
  constructor
  · constructor
    · intro h
      by_contra hlt
      simp only [select_from, ge_iff_le] at h
      rw [if_pos (by omega)] at h
      simp at h
    · intro h
      simp only [select_from, ge_iff_le]
      rw [if_neg (by omega)]
  · intro h
    refine ⟨coverLen t 0 outputs, coverLen_le_length t 0 outputs, ?_, ?_, ?_⟩
    · simp only [select_from, ge_iff_le]
      rw [if_pos h]
      simp [selectFromGo_eq_take]
    · have := coverLen_covers t 0 outputs (by omega)
      omega
    · intro j hj
      have := coverLen_strict t 0 outputs j hj
      omega

theorem mem_insertAsc {α : Type} (val : α → Nat) (a x : α) (l : List α) :
    x ∈ insertAsc val a l ↔ x = a ∨ x ∈ l := by
  induction l with
  | nil => simp [insertAsc]
  | cons b t ih =>
      simp only [insertAsc]
      by_cases h : val b < val a
      · simp only [h, if_true, List.mem_cons, ih]
        tauto
      · simp only [h, if_false, List.mem_cons]

theorem sorted_insertAsc {α : Type} (val : α → Nat) (a : α) (l : List α)
    (h : l.Pairwise (fun x y => val x ≤ val y)) :
    (insertAsc val a l).Pairwise (fun x y => val x ≤ val y) := by
  induction l with
  | nil => simp [insertAsc]
  | cons b t ih =>
      rw [List.pairwise_cons] at h
      simp only [insertAsc]
      by_cases hba : val b < val a
      · simp only [hba, if_true, List.pairwise_cons]
        constructor
        · intro y hy
          rcases (mem_insertAsc val a y t).mp hy with hya | hyt
          · subst hya; omega
          · exact h.1 y hyt
        · exact ih h.2
      · simp only [hba, if_false, List.pairwise_cons]
        refine ⟨?_, h.1, h.2⟩
        intro y hy
        rcases List.mem_cons.mp hy with hyb | hyt
        · subst hyb; omega
        · have := h.1 y hyt; omega

theorem sorted_sortAsc {α : Type} (val : α → Nat) (l : List α) :
    (sortAsc val l).Pairwise (fun x y => val x ≤ val y) := by
  induction l with
  | nil => simp [sortAsc]
  | cons a t ih => exact sorted_insertAsc val a (sortAsc val t) ih

/-- `findSome?` returns the image of the first element on which `f` succeeds. -/
theorem findSome?_of_first {α β : Type} (f : α → Option β) :
    ∀ (l : List α) (i : Fin l.length) (b : β),
      (∀ j : Fin l.length, j.val < i.val → f (l.get j) = none) →
      f (l.get i) = some b → l.findSome? f = some b := by
  intro l
  induction l with
  | nil => intro i; exact absurd i.isLt (by simp)
  | cons a t ih =>
      intro i b hprev hi
      rw [List.findSome?_cons]
      match i with
      | ⟨0, _⟩ =>
          simp only [List.get] at hi
          rw [hi]
      | ⟨j + 1, hj⟩ =>
          have h0 : f a = none := hprev ⟨0, Nat.succ_pos _⟩ (Nat.succ_pos _)
          rw [h0]
          exact ih ⟨j, Nat.lt_of_succ_lt_succ hj⟩ b
            (fun k hk => hprev ⟨k.val + 1, Nat.succ_lt_succ k.isLt⟩ (Nat.succ_lt_succ hk))
            hi

/-- `findSome?` fails when `f` fails on every element. -/
theorem findSome?_of_all_none {α β : Type} (f : α → Option β) :
    ∀ (l : List α), (∀ x ∈ l, f x = none) → l.findSome? f = none := by
  intro l h
  induction l with
  | nil => rfl
  | cons a t ih =>
      rw [List.findSome?_cons, h a (by simp)]
      exact ih fun x hx => h x (List.mem_cons_of_mem a hx)

/-- C7: when the eligible count exceeds `max_outputs`, `select_coins` slides a
window of size `max_outputs` across the ascending-sorted eligible list and
returns the covering search's result for the first window that succeeds; only
if every window fails does it apply the covering search to the entire
eligible set (ignoring the cap), returning that result if it succeeds; the
diagnostic failure set is returned only after this unrestricted attempt also
fails. -/
theorem select_coins_window_fallback (wallet : List OutputData) (parent : Nat)
    (elig : OutputData → Bool) (amount max_outputs : Nat) (select_all : Bool)
    (_hcap : 1 ≤ max_outputs)
    (hcount : max_outputs < (eligibleSorted wallet parent elig).length) :
    (∀ i : Fin (listWindows max_outputs (eligibleSorted wallet parent elig)).length,
      ∀ outs,
      (∀ j : Fin (listWindows max_outputs (eligibleSorted wallet parent elig)).length,
        j.val < i.val →
        select_from amount select_all
          ((listWindows max_outputs (eligibleSorted wallet parent elig)).get j) = none) →
      select_from amount select_all
          ((listWindows max_outputs (eligibleSorted wallet parent elig)).get i) = some outs →
      (select_coins wallet parent elig amount max_outputs select_all).2 = outs) ∧
    ((∀ w ∈ listWindows max_outputs (eligibleSorted wallet parent elig),
        select_from amount select_all w = none) →
      (∀ outs,
        select_from amount false (eligibleSorted wallet parent elig) = some outs →
        (select_coins wallet parent elig amount max_outputs select_all).2 = outs) ∧
      (select_from amount false (eligibleSorted wallet parent elig) = none →
        (select_coins wallet parent elig amount max_outputs select_all).2 =
          (eligibleSorted wallet parent elig).reverse.take max_outputs)) := by
  constructor
  · intro i outs hprev hi
    have hfs := findSome?_of_first (fun w => select_from amount select_all w)
      (listWindows max_outputs (eligibleSorted wallet parent elig)) i outs hprev hi
    simp only [select_coins]
    rw [if_pos hcount, hfs]
  · intro hall
    have hfs := findSome?_of_all_none (fun w => select_from amount select_all w)
      (listWindows max_outputs (eligibleSorted wallet parent elig)) hall
    constructor
    · intro outs houts
      simp only [select_coins]
      rw [if_pos hcount, hfs, houts]
    · intro hnone
      simp only [select_coins]
      rw [if_pos hcount, hfs, hnone]

/-- Witness for C7: cap 2, eligible `[5,5,5,30]`, target 40 — every window of
size 2 fails and the unrestricted covering search returns all four coins. -/
theorem select_coins_window_fallback_witness :
    (select_coins exWalletW 0 (fun _ => true) 40 2 false).2 = exWalletW := by
  have h := select_coins_window_fallback exWalletW 0 (fun _ => true) 40 2 false
    (by decide) (by decide)
  exact (h.2 (by decide)).1 exWalletW (by decide)

/-- On any index list on which every child allocation succeeds, the change
loop succeeds and its amounts are the pointwise split formula. -/
theorem changeOutputsFor_amounts (nextChild : Nat → Option Nat) (mkPart : Nat → Nat → Part)
    (part rem n : Nat) :
    ∀ xs : List Nat, (∀ x ∈ xs, (nextChild x).isSome) →
      ∃ cads ps,
        changeOutputsFor nextChild mkPart part rem n xs = some (cads, ps) ∧
        cads.map (fun c => c.1) =
          xs.map (fun x => if x = n - 1 then part + rem else part) := by
  intro xs
  induction xs with
  | nil => intro; exact ⟨[], [], rfl, rfl⟩
  | cons x t ih =>
      intro h
      obtain ⟨key, hkey⟩ := Option.isSome_iff_exists.mp (h x (by simp))
      obtain ⟨cads, ps, hrec, hmap⟩ := ih fun y hy => h y (List.mem_cons_of_mem x hy)
      refine ⟨(if x = n - 1 then part + rem else part, key, none) :: cads,
        mkPart (if x = n - 1 then part + rem else part) key :: ps, ?_, ?_⟩
      · simp only [changeOutputsFor, hkey, hrec]
      · simp [hmap]

theorem range_map_split (part rem : Nat) :
    ∀ n, 1 ≤ n →
      (List.range n).map (fun x => if x = n - 1 then part + rem else part) =
        List.replicate (n - 1) part ++ [part + rem] := by
  intro n hn
  obtain ⟨m, rfl⟩ := Nat.exists_eq_add_of_le hn
  rw [Nat.add_comm 1 m, List.range_succ, List.map_append]
  simp only [Nat.add_sub_cancel, List.map_cons, List.map_nil, if_pos rfl]
  congr 1
  rw [List.eq_replicate_iff]
  refine ⟨by simp, ?_⟩
  intro b hb
  obtain ⟨x, hx, rfl⟩ := List.mem_map.mp hb
  rw [if_neg (Nat.ne_of_lt (List.mem_range.mp hx))]

/-- C2 is false as the claim states it: with change 5 and 3 requested change
outputs, `inputs_and_change` produces amounts `[1, 1, 1]` — the last output
is `floor(5/3) + 5 mod floor(5/3) = 1 + 0` — whose sum 3 is not the change 5. -/
theorem change_split_counterexample :
    inputs_and_change
        [⟨0, 9, 9, none, none, 5, .Unspent, 0, 0, false, none⟩]
        (fun k => some (100 + k)) 0 0 3 false =
      some ([Part.output 1 100, Part.output 1 101, Part.output 1 102],
            [(1, 100, none), (1, 101, none), (1, 102, none)]) ∧
    sumValues [⟨0, 9, 9, none, none, 5, .Unspent, 0, 0, false, none⟩] - 0 - 0 = 5 ∧
    (([(1 : Nat), 1, 1]).sum ≠ 5) := by
  exact ⟨by decide, by decide, by decide⟩

/-- C2 (amended): the produced amounts follow the source's formula — the
first `n − 1` equal `floor(change/n)` and the last equals
`floor(change/n) + (change mod floor(change/n))` — and their sum equals
`change` exactly whenever `change mod n < floor(change/n)` (the
counterexample above shows exactness fails without that condition); when
`change = 0` no change outputs are produced. Both the primary split
(`inputs_and_change`) and the token split (`token_inputs_and_change`) comply. -/
theorem change_split_exact_amended
    (coins coins0 : List OutputData) (tcoins tcoins0 : List TokenOutputData)
    (nextChild : Nat → Option Nat) (amount fee change n : Nat) (inc : Bool) (token_type : Nat)
    (hnc : ∀ y, y < n → (nextChild y).isSome)
    (hmod : change % n < change / n)
    (hpos : 0 < change)
    (hsum : sumValues coins = amount + fee + change)
    (htsum : sumTokenValues tcoins = amount + change)
    (hsum0 : sumValues coins0 = amount + fee)
    (htsum0 : sumTokenValues tcoins0 = amount) :
    (∃ parts cads,
      inputs_and_change coins nextChild amount fee n inc = some (parts, cads) ∧
      cads.map (fun c => c.1) =
        List.replicate (n - 1) (change / n) ++ [change / n + change % (change / n)] ∧
      (cads.map (fun c => c.1)).sum = change) ∧
    (∃ parts cads,
      token_inputs_and_change tcoins nextChild amount token_type n inc = some (parts, cads) ∧
      cads.map (fun c => c.1) =
        List.replicate (n - 1) (change / n) ++ [change / n + change % (change / n)] ∧
      (cads.map (fun c => c.1)).sum = change) ∧
    (∃ parts, inputs_and_change coins0 nextChild amount fee n inc = some (parts, [])) ∧
    (∃ parts, token_inputs_and_change tcoins0 nextChild amount token_type n inc =
      some (parts, [])) := by
  have hn : 1 ≤ n := by
    rcases Nat.eq_zero_or_pos n with h0 | h1
    · subst h0; simp [Nat.mod_zero, Nat.div_zero] at hmod
    · exact h1
  have hq : 0 < change / n := lt_of_le_of_lt (Nat.zero_le _) hmod
  -- the split amounts and their sum
  have hamounts := changeOutputsFor_amounts nextChild (fun amt key => Part.output amt key)
    (change / n) (change % (change / n)) n (List.range n)
    (fun x hx => hnc x (List.mem_range.mp hx))
  have htamounts := changeOutputsFor_amounts nextChild
    (fun amt key => Part.token_output amt token_type false key)
    (change / n) (change % (change / n)) n (List.range n)
    (fun x hx => hnc x (List.mem_range.mp hx))
  have hmodq : change % (change / n) = change % n := by
    have h2 := Nat.div_add_mod change n
    have e1 : change % n + (change / n) * n = n * (change / n) + change % n := by ring
    calc change % (change / n)
        = (change % n + (change / n) * n) % (change / n) := by rw [e1, h2]
      _ = (change % n) % (change / n) := by
            rw [Nat.add_mul_mod_self_left (change % n) (change / n) n]
      _ = change % n := Nat.mod_eq_of_lt hmod
  have hsplit := range_map_split (change / n) (change % (change / n)) n hn
  have hsumlist :
      (List.replicate (n - 1) (change / n) ++ [change / n + change % (change / n)]).sum
        = change := by
    rw [hmodq, List.sum_append, List.sum_replicate, smul_eq_mul]
    simp only [List.sum_cons, List.sum_nil]
    have h1 : n - 1 + 1 = n := Nat.succ_pred_eq_of_pos hn
    have h2 := Nat.div_add_mod change n
    have key : (n - 1) * (change / n) + (change / n + change % n + 0) =
        (n - 1 + 1) * (change / n) + change % n := by ring
    rw [key, h1]
    exact h2
  refine ⟨?_, ?_, ?_, ?_⟩
  · obtain ⟨cads, ps, hfor, hmap⟩ := hamounts
    refine ⟨(if inc then coins.map fun coin =>
        if coin.is_coinbase then Part.coinbase_input coin.value coin.key_id
        else Part.input coin.value coin.key_id else []) ++ ps, cads, ?_, ?_, ?_⟩
    · simp only [inputs_and_change, hsum]
      rw [if_neg (by omega)]
      have hch : amount + fee + change - amount - fee = change := by omega
      rw [hch]
      rw [if_neg (by omega), if_neg (by omega), hfor]
    · rw [hmap, hsplit]
    · rw [hmap, hsplit]; exact hsumlist
  · obtain ⟨cads, ps, hfor, hmap⟩ := htamounts
    refine ⟨(if inc then tcoins.map fun coin =>
        Part.token_input coin.value token_type coin.is_token_issue coin.key_id else []) ++ ps,
      cads, ?_, ?_, ?_⟩
    · simp only [token_inputs_and_change, htsum]
      rw [if_neg (by omega)]
      have hch : amount + change - amount = change := by omega
      rw [hch]
      rw [if_neg (by omega), if_neg (by omega), hfor]
    · rw [hmap, hsplit]
    · rw [hmap, hsplit]; exact hsumlist
  · refine ⟨(if inc then coins0.map fun coin =>
        if coin.is_coinbase then Part.coinbase_input coin.value coin.key_id
        else Part.input coin.value coin.key_id else []), ?_⟩
    simp only [inputs_and_change, hsum0]
    rw [if_neg (by omega)]
    have hch : amount + fee - amount - fee = 0 := by omega
    rw [hch, if_pos rfl]
  · refine ⟨(if inc then tcoins0.map fun coin =>
        Part.token_input coin.value token_type coin.is_token_issue coin.key_id else []), ?_⟩
    simp only [token_inputs_and_change, htsum0]
    rw [if_neg (by omega)]
    have hch : amount - amount = 0 := by omega
    rw [hch, if_pos rfl]

/-- Witness for the amended C2 at the spec's example `change = 9001`, `n = 2`:
amounts `[4500, 4501]`, summing to 9001. -/
theorem change_split_exact_amended_witness :
    (∃ parts cads,
      inputs_and_change [⟨0, 9, 9, none, none, 9001, .Unspent, 0, 0, false, none⟩]
        (fun k => some (100 + k)) 0 0 2 false = some (parts, cads) ∧
      cads.map (fun c => c.1) =
        List.replicate (2 - 1) (9001 / 2) ++ [9001 / 2 + 9001 % (9001 / 2)] ∧
      (cads.map (fun c => c.1)).sum = 9001) ∧
    (∃ parts cads,
      token_inputs_and_change [⟨0, 9, 9, none, 7, none, 9001, .Unspent, 0, 0, false, none⟩]
        (fun k => some (100 + k)) 0 7 2 false = some (parts, cads) ∧
      cads.map (fun c => c.1) =
        List.replicate (2 - 1) (9001 / 2) ++ [9001 / 2 + 9001 % (9001 / 2)] ∧
      (cads.map (fun c => c.1)).sum = 9001) ∧
    (∃ parts, inputs_and_change [] (fun k => some (100 + k)) 0 0 2 false = some (parts, [])) ∧
    (∃ parts, token_inputs_and_change [] (fun k => some (100 + k)) 0 7 2 false =
      some (parts, [])) :=
  change_split_exact_amended
    [⟨0, 9, 9, none, none, 9001, .Unspent, 0, 0, false, none⟩] []
    [⟨0, 9, 9, none, 7, none, 9001, .Unspent, 0, 0, false, none⟩] []
    (fun k => some (100 + k)) 0 0 9001 2 false 7
    (by decide) (by decide) (by decide) (by decide) (by decide) (by decide) (by decide)

theorem sumValues_append (a b : List OutputData) :
    sumValues (a ++ b) = sumValues a + sumValues b := by
  simp only [sumValues, List.foldl_append]
  exact foldl_add_value b (List.foldl (fun acc x => acc + x.value) 0 a)

theorem sumValues_eq_map_sum (l : List OutputData) :
    sumValues l = (l.map (fun o => o.value)).sum := by
  induction l with
  | nil => rfl
  | cons o t ih => rw [sumValues_cons, List.map_cons, List.sum_cons, ih]

theorem sumValues_reverse (l : List OutputData) :
    sumValues l.reverse = sumValues l := by
  rw [sumValues_eq_map_sum, sumValues_eq_map_sum, List.map_reverse, List.sum_reverse]

/-- Prefix sums are monotone in the prefix length. -/
theorem sumValues_take_le (l : List OutputData) (j k : Nat) (h : j ≤ k) :
    sumValues (l.take j) ≤ sumValues (l.take k) := by
  obtain ⟨d, rfl⟩ := Nat.exists_eq_add_of_le h
  rw [List.take_add, sumValues_append]
  omega

/-- Dropping the head of an ascending-sorted list pointwise dominates:
a `k`-prefix of the tail weighs at least the `k`-prefix of the whole. -/
theorem sumValues_take_cons_le :
    ∀ (t : List OutputData) (a : OutputData),
      (a :: t).Pairwise (fun x y => x.value ≤ y.value) →
      ∀ k, k ≤ t.length → sumValues ((a :: t).take k) ≤ sumValues (t.take k) := by
  intro t
  induction t with
  | nil =>
      intro a _ k hk
      have : k = 0 := Nat.le_zero.mp hk
      subst this
      simp
  | cons b t' ih =>
      intro a hsort k hk
      cases k with
      | zero => simp
      | succ k' =>
          rw [List.take_succ_cons, sumValues_cons, List.take_succ_cons, sumValues_cons]
          have hab : a.value ≤ b.value := (List.pairwise_cons.mp hsort).1 b (by simp)
          have hsort' := (List.pairwise_cons.mp hsort).2
          have hrec := ih b hsort' k' (by simpa using hk)
          omega

/-- On an ascending-sorted list, the `k`-prefix of the whole list weighs at
most the `k`-prefix of any suffix that still holds `k` elements. -/
theorem sumValues_take_le_drop_take :
    ∀ (l : List OutputData),
      l.Pairwise (fun x y => x.value ≤ y.value) →
      ∀ i k, i + k ≤ l.length →
        sumValues (l.take k) ≤ sumValues ((l.drop i).take k) := by
  intro l
  induction l with
  | nil =>
      intro _ i k h
      simp only [List.length_nil, Nat.le_zero] at h
      simp [List.take_nil, List.drop_nil]
  | cons a t ih =>
      intro hsort i k h
      cases i with
      | zero => simp
      | succ i' =>
          rw [List.drop_succ_cons]
          have hlen : i' + k ≤ t.length := by
            simp only [List.length_cons] at h; omega
          calc sumValues ((a :: t).take k)
              ≤ sumValues (t.take k) :=
                sumValues_take_cons_le t a hsort k (by omega)
            _ ≤ sumValues ((t.drop i').take k) :=
                ih (List.pairwise_cons.mp hsort).2 i' k hlen

/-- Every window is a `take` of a suffix with room for `k` elements. -/
theorem mem_listWindows {α : Type} (k : Nat) :
    ∀ (l w : List α), w ∈ listWindows k l →
      ∃ i, i + k ≤ l.length ∧ w = (l.drop i).take k := by
  intro l
  induction l with
  | nil => intro w hw; simp [listWindows] at hw
  | cons a t ih =>
      intro w hw
      simp only [listWindows] at hw
      by_cases hc : k ≤ t.length + 1 ∧ 0 < k
      · rw [if_pos hc] at hw
        rcases List.mem_cons.mp hw with hw1 | hw2
        · exact ⟨0, by simpa using hc.1, by simpa using hw1⟩
        · obtain ⟨i, hik, hwi⟩ := ih w hw2
          refine ⟨i + 1, ?_, ?_⟩
          · simp only [List.length_cons]; omega
          · simpa [List.drop_succ_cons] using hwi
      · rw [if_neg hc] at hw
        simp at hw

theorem select_from_of_total_lt (A : Nat) (sa : Bool) (l : List OutputData)
    (h : sumValues l < A) : select_from A sa l = none := by
  simp only [select_from]
  rw [if_neg (by omega)]

/-- A successful covering search always returns a prefix whose sum covers the
target (the whole list under `select_all`, the greedy prefix otherwise). -/
theorem select_from_some_shape (A : Nat) (sa : Bool) (l outs : List OutputData)
    (h : select_from A sa l = some outs) :
    ∃ k, k ≤ l.length ∧ outs = l.take k ∧ A ≤ sumValues (l.take k) := by
  simp only [select_from] at h
  by_cases htot : A ≤ sumValues l
  · rw [if_pos htot] at h
    cases sa with
    | true =>
        simp only [if_true, Option.some.injEq] at h
        exact ⟨l.length, Nat.le_refl _, by rw [← h, List.take_length],
          by rw [List.take_length]; exact htot⟩
    | false =>
        simp only [Bool.false_eq_true, if_false, Option.some.injEq] at h
        refine ⟨coverLen A 0 l, coverLen_le_length A 0 l, ?_, ?_⟩
        · rw [← h, selectFromGo_eq_take]
        · have := coverLen_covers A 0 l (by omega)
          omega
  · rw [if_neg (by omega)] at h
    exact absurd h (by simp)

/-- The first component returned by `select_coins` is always the eligible
count. -/
theorem select_coins_fst (wallet : List OutputData) (parent : Nat)
    (elig : OutputData → Bool) (amount cap : Nat) (sa : Bool) :
    (select_coins wallet parent elig amount cap sa).1 =
      (eligibleSorted wallet parent elig).length := by
  simp only [select_coins]
  split
  · split <;> try split
    all_goals rfl
  · split <;> rfl

/-- When the cap equals the eligible count (as inside the fee loop, after the
shadowing), the windowed branch is skipped: the result is the whole-set
covering search, or the full descending eligible list on failure. -/
theorem select_coins_snd_at_cap (wallet : List OutputData) (parent : Nat)
    (elig : OutputData → Bool) (amount : Nat) (sa : Bool) :
    (select_coins wallet parent elig amount
        (eligibleSorted wallet parent elig).length sa).2 =
      match select_from amount sa (eligibleSorted wallet parent elig) with
      | some outs => outs
      | none => (eligibleSorted wallet parent elig).reverse := by
  simp only [select_coins]
  rw [if_neg (lt_irrefl _)]
  cases hsf : select_from amount sa (eligibleSorted wallet parent elig) with
  | some outs => simp
  | none =>
      simp only
      rw [List.take_of_length_le (by rw [List.length_reverse])]

/-- Any result of `select_coins` is bounded by the eligible count and weighs
at least the same-length ascending prefix of the eligible list (the key
invariant for the fee loop's strictly growing selections). -/
theorem select_coins_snd_invariant (wallet : List OutputData) (parent : Nat)
    (elig : OutputData → Bool) (amount cap : Nat) (sa : Bool) :
    (select_coins wallet parent elig amount cap sa).2.length ≤
      (eligibleSorted wallet parent elig).length ∧
    sumValues ((eligibleSorted wallet parent elig).take
        (select_coins wallet parent elig amount cap sa).2.length) ≤
      sumValues (select_coins wallet parent elig amount cap sa).2 := by
  have hsorted : (eligibleSorted wallet parent elig).Pairwise
      (fun x y => x.value ≤ y.value) := sorted_sortAsc _ _
  set e := eligibleSorted wallet parent elig with he
  simp only [select_coins, ← he]
  by_cases hcap : cap < e.length
  · rw [if_pos hcap]
    cases hfs : (listWindows cap e).findSome? (fun w => select_from amount sa w) with
    | some outs =>
        simp only
        obtain ⟨w, hwmem, hwsel⟩ := List.exists_of_findSome?_eq_some hfs
        obtain ⟨i, hik, rfl⟩ := mem_listWindows cap e w hwmem
        obtain ⟨k, hk, rfl, hcov⟩ := select_from_some_shape amount sa _ _ hwsel
        rw [List.take_take] at *
        have hkcap : min k cap = k := by
          rw [List.length_take, List.length_drop] at hk
          omega
        rw [hkcap] at *
        have hlen : ((e.drop i).take k).length = k := by
          rw [List.length_take, List.length_drop]
          rw [List.length_take, List.length_drop] at hk
          omega
        rw [hlen]
        constructor
        · rw [List.length_take, List.length_drop] at hk
          omega
        · have hshift := sumValues_take_le_drop_take e hsorted i k
            (by rw [List.length_take, List.length_drop] at hk; omega)
          exact hshift
    | none =>
        simp only
        cases hsf2 : select_from amount false e with
        | some outs2 =>
            simp only
            obtain ⟨k, hk, rfl, hcov⟩ := select_from_some_shape amount false _ _ hsf2
            rw [List.length_take, Nat.min_eq_left hk]
            exact ⟨hk, Nat.le_refl _⟩
        | none =>
            simp only
            have hlen : (e.reverse.take cap).length = cap := by
              rw [List.length_take, List.length_reverse]
              omega
            rw [hlen]
            constructor
            · omega
            · rw [List.take_reverse, sumValues_reverse]
              have hdt : e.drop (e.length - cap) =
                  (e.drop (e.length - cap)).take cap := by
                rw [List.take_of_length_le]
                rw [List.length_drop]
                omega
              rw [hdt]
              exact sumValues_take_le_drop_take e hsorted (e.length - cap) cap (by omega)
  · rw [if_neg hcap]
    cases hsf : select_from amount sa e with
    | some outs =>
        simp only
        obtain ⟨k, hk, rfl, hcov⟩ := select_from_some_shape amount sa _ _ hsf
        rw [List.length_take, Nat.min_eq_left hk]
        exact ⟨hk, Nat.le_refl _⟩
    | none =>
        simp only
        rw [List.take_of_length_le (by rw [List.length_reverse]; omega)]
        rw [List.length_reverse, List.take_length, sumValues_reverse]
        exact ⟨Nat.le_refl _, Nat.le_refl _⟩

/-- Fuel `max_available + 2` always suffices for the fee loop: every
re-selection either strictly grows the selected count or jumps to the full
eligible set, so within the fuel the loop exits — successfully with the
selected total covering `amount + fee`, or with `NotEnoughFunds`. -/
theorem feeLoop_spec (wallet : List OutputData) (parent : Nat) (elig : OutputData → Bool)
    (amount : Nat) (select_all : Bool) (feeOf : Nat → Nat) :
    ∀ (fuel : Nat) (coins : List OutputData) (fee total target : Nat),
      coins.length ≤ (eligibleSorted wallet parent elig).length →
      sumValues ((eligibleSorted wallet parent elig).take coins.length) ≤ total →
      (eligibleSorted wallet parent elig).length + 1 - coins.length < fuel →
      target = amount + fee →
      ∃ r, feeLoop wallet parent elig amount (eligibleSorted wallet parent elig).length
            select_all feeOf fuel coins fee total target = some r ∧
        (∀ cs t a f, r = FeeOutcome.ok cs t a f → a = amount ∧ a + f ≤ t) ∧
        (∀ er, r = FeeOutcome.err er →
          ∃ av nd, er = WalletError.notEnoughFunds av nd) := by
  intro fuel
  induction fuel with
  | zero => intro coins fee total target _ _ hfuel _; omega
  | succ f ih =>
      intro coins fee total target hL hInv hfuel htarget
      by_cases h1 : total < target
      · by_cases h2 : coins.length = (eligibleSorted wallet parent elig).length
        · refine ⟨.err (.notEnoughFunds total target), ?_, by simp, ?_⟩
          · simp only [feeLoop]
            rw [if_pos h1, if_pos h2]
          · intro er her
            injection her with h
            exact ⟨total, target, h.symm⟩
        · have hrw := select_coins_snd_at_cap wallet parent elig target select_all
          cases hsf : select_from target select_all (eligibleSorted wallet parent elig) with
          | some outs =>
              obtain ⟨k, hk, houts, hcov⟩ :=
                select_from_some_shape target select_all _ outs hsf
              have hsnd : (select_coins wallet parent elig target
                  (eligibleSorted wallet parent elig).length select_all).2 =
                  (eligibleSorted wallet parent elig).take k := by
                rw [hrw, hsf, ← houts]
              have hklen : ((eligibleSorted wallet parent elig).take k).length = k := by
                rw [List.length_take]; omega
              have hkgt : coins.length < k := by
                by_contra hle
                push_neg at hle
                have := sumValues_take_le (eligibleSorted wallet parent elig) k
                  coins.length hle
                omega
              obtain ⟨r, hr, hok, herr⟩ := ih
                ((eligibleSorted wallet parent elig).take k)
                (feeOf ((eligibleSorted wallet parent elig).take k).length)
                (sumValues ((eligibleSorted wallet parent elig).take k))
                (amount + feeOf ((eligibleSorted wallet parent elig).take k).length)
                (by rw [hklen]; exact hk)
                (by rw [hklen])
                (by rw [hklen]; omega)
                rfl
              refine ⟨r, ?_, hok, herr⟩
              simp only [feeLoop]
              rw [if_pos h1, if_neg h2, hsnd]
              exact hr
          | none =>
              have hsnd : (select_coins wallet parent elig target
                  (eligibleSorted wallet parent elig).length select_all).2 =
                  (eligibleSorted wallet parent elig).reverse := by
                rw [hrw, hsf]
              have hrevlen : (eligibleSorted wallet parent elig).reverse.length =
                  (eligibleSorted wallet parent elig).length := List.length_reverse _
              obtain ⟨r, hr, hok, herr⟩ := ih
                (eligibleSorted wallet parent elig).reverse
                (feeOf (eligibleSorted wallet parent elig).reverse.length)
                (sumValues (eligibleSorted wallet parent elig).reverse)
                (amount + feeOf (eligibleSorted wallet parent elig).reverse.length)
                (by rw [hrevlen])
                (by rw [hrevlen, List.take_length, sumValues_reverse])
                (by rw [hrevlen]; omega)
                rfl
              refine ⟨r, ?_, hok, herr⟩
              simp only [feeLoop]
              rw [if_pos h1, if_neg h2, hsnd]
              exact hr
      · refine ⟨.ok coins total amount fee, ?_, ?_, by simp⟩
        · simp only [feeLoop]
          rw [if_neg h1]
        · intro cs t a f heq
          injection heq with hcs ht ha hf
          subst ht; subst ha; subst hf
          exact ⟨rfl, by omega⟩

/-- C4: the fee-solving loop of `select_coins_and_fee` always terminates:
for every wallet state, amount and parameters (with a positive output cap) it
returns a value — an `ok` whose total covers `amount + fee`, or a
`NotEnoughFunds` error — and never diverges; the fuel `max_available + 2`
handed to the loop is proved sufficient, `max_available` being the value the
source's shadowed `max_outputs` holds during the loop. -/
theorem select_coins_and_fee_terminates (wallet : List OutputData) (parent : Nat)
    (elig : OutputData → Bool) (amount max_outputs change_outputs : Nat)
    (select_all : Bool) (tin tout : Nat) (_hcap : 1 ≤ max_outputs) :
    ∃ r, select_coins_and_fee wallet parent elig amount max_outputs change_outputs
          select_all tin tout = some r ∧
      (∀ cs t a f, r = FeeOutcome.ok cs t a f → a = amount ∧ a + f ≤ t) ∧
      (∀ er, r = FeeOutcome.err er →
        ∃ av nd, er = WalletError.notEnoughFunds av nd) := by
  have hfst := select_coins_fst wallet parent elig (amount + DEFAULT_BASE_FEE)
    max_outputs select_all
  obtain ⟨hlen0, hinv0⟩ := select_coins_snd_invariant wallet parent elig
    (amount + DEFAULT_BASE_FEE) max_outputs select_all
  simp only [select_coins_and_fee]
  by_cases h0 : sumValues (select_coins wallet parent elig (amount + DEFAULT_BASE_FEE)
      max_outputs select_all).2 = 0
  · rw [if_pos h0]
    exact ⟨_, rfl, by simp, fun er her => by injection her with h; exact ⟨_, _, h.symm⟩⟩
  · rw [if_neg h0]
    by_cases h1 : sumValues (select_coins wallet parent elig (amount + DEFAULT_BASE_FEE)
        max_outputs select_all).2 <
        amount + tx_fee (select_coins wallet parent elig (amount + DEFAULT_BASE_FEE)
          max_outputs select_all).2.length (if amount = 0 then 0 else 1) 1 tin tout
          (if tout = 0 then 0 else 1) none ∧
        (select_coins wallet parent elig (amount + DEFAULT_BASE_FEE)
          max_outputs select_all).2.length =
        (select_coins wallet parent elig (amount + DEFAULT_BASE_FEE)
          max_outputs select_all).1
    · rw [if_pos h1]
      exact ⟨_, rfl, by simp, fun er her => by injection her with h; exact ⟨_, _, h.symm⟩⟩
    · rw [if_neg h1]
      by_cases h2 : sumValues (select_coins wallet parent elig (amount + DEFAULT_BASE_FEE)
          max_outputs select_all).2 ≠
          amount + tx_fee (select_coins wallet parent elig (amount + DEFAULT_BASE_FEE)
            max_outputs select_all).2.length (if amount = 0 then 0 else 1) 1 tin tout
            (if tout = 0 then 0 else 1) none
      · rw [if_pos h2, hfst]
        exact feeLoop_spec wallet parent elig amount select_all _
          ((eligibleSorted wallet parent elig).length + 2) _ _ _ _
          hlen0 hinv0 (by omega) rfl
      · rw [if_neg h2]
        push_neg at h2
        refine ⟨_, rfl, ?_, by simp⟩
        intro cs t a f heq
        injection heq with hcs ht ha hf
        subst ht; subst ha; subst hf
        exact ⟨rfl, by omega⟩

/-- Witness for C4 at a concrete state: four coins of values 10, 20, 30, 50,
amount 40, cap 10. -/
theorem select_coins_and_fee_terminates_witness :
    ∃ r, select_coins_and_fee exCoinsW 0 (fun _ => true) 40 10 1 false 0 0 = some r ∧
      (∀ cs t a f, r = FeeOutcome.ok cs t a f → a = 40 ∧ a + f ≤ t) ∧
      (∀ er, r = FeeOutcome.err er →
        ∃ av nd, er = WalletError.notEnoughFunds av nd) :=
  select_coins_and_fee_terminates exCoinsW 0 (fun _ => true) 40 10 1 false 0 0
    (by decide)

/-- C6: two invocations of the primary-asset fee computation that agree on
the primary input/output/kernel counts but differ in the secondary-asset
input/output/kernel counts compute the same primary fee, and consequently the
whole of `select_coins_and_fee` is invariant under the secondary-asset counts
it passes through. (`tx_fee` is modelled from the spec: secondary-asset legs
feed the fee sizing signature but never alter the fee the sender pays.) -/
theorem select_coins_and_fee_token_neutral (wallet : List OutputData) (parent : Nat)
    (elig : OutputData → Bool) (amount max_outputs change_outputs : Nat)
    (select_all : Bool) (i o k tin tout tk tin2 tout2 tk2 : Nat) (b : Option Nat) :
    tx_fee i o k tin tout tk b = tx_fee i o k tin2 tout2 tk2 b ∧
    select_coins_and_fee wallet parent elig amount max_outputs change_outputs
        select_all tin tout =
      select_coins_and_fee wallet parent elig amount max_outputs change_outputs
        select_all tin2 tout2 :=
  ⟨rfl, rfl⟩

/-- C5 is false as stated: with three eligible token coins of value 1, cap 2
and requested amount 10, every window and the unrestricted covering search
fail, the diagnostic fallback selects the two largest coins, and
`select_token_coins_and_fee` returns success with total 2 < 10 — a
non-covering selection accepted because the selected count (2) differs from
the eligible count (3), instead of the `InsufficientFunds` failure the claim
requires. -/
theorem select_token_coins_and_fee_counterexample :
    select_token_coins_and_fee exTokenPool 0 7 (fun _ => true) 10 2 false =
      .ok [⟨0, 3, 3, none, 7, none, 1, .Unspent, 0, 0, false, none⟩,
           ⟨0, 2, 2, none, 7, none, 1, .Unspent, 0, 0, false, none⟩] 2 10 ∧
    (2 : Nat) < 10 := by
  exact ⟨by decide, by decide⟩

/-- C5 (amended): `select_token_coins_and_fee` performs no fee fixed-point
iteration; it succeeds with the selection whenever the selected total covers
the requested amount (and is non-zero); every failure is `InsufficientFunds`
carrying the available total and the needed amount, and failures only occur
when the selection falls short of a positive request; but success does not
imply covering — a successful non-covering selection escapes exactly when
its coin count differs from the eligible count (as the counterexample
forces). -/
theorem select_token_coins_and_fee_amended (walletTokens : List TokenOutputData)
    (parent token_type : Nat) (elig : TokenOutputData → Bool) (amount cap : Nat)
    (sa : Bool) :
    (0 < sumTokenValues (select_token_coins walletTokens parent token_type elig
        amount cap sa).2 →
      amount ≤ sumTokenValues (select_token_coins walletTokens parent token_type elig
        amount cap sa).2 →
      select_token_coins_and_fee walletTokens parent token_type elig amount cap sa =
        .ok (select_token_coins walletTokens parent token_type elig amount cap sa).2
          (sumTokenValues (select_token_coins walletTokens parent token_type elig
            amount cap sa).2) amount) ∧
    (∀ er, select_token_coins_and_fee walletTokens parent token_type elig amount cap sa =
        .err er → ∃ av, er = .notEnoughFunds av amount) ∧
    (0 < amount →
      ∀ er, select_token_coins_and_fee walletTokens parent token_type elig amount cap sa =
        .err er →
      sumTokenValues (select_token_coins walletTokens parent token_type elig
        amount cap sa).2 < amount) ∧
    (∀ cs total, select_token_coins_and_fee walletTokens parent token_type elig
        amount cap sa = .ok cs total amount → total < amount →
      cs.length ≠ (select_token_coins walletTokens parent token_type elig
        amount cap sa).1) := by
  refine ⟨?_, ?_, ?_, ?_⟩
  · intro hpos hcov
    simp only [select_token_coins_and_fee]
    rw [if_neg (by omega), if_neg (by omega)]
  · intro er her
    simp only [select_token_coins_and_fee] at her
    by_cases h0 : sumTokenValues (select_token_coins walletTokens parent token_type elig
        amount cap sa).2 = 0
    · rw [if_pos h0] at her
      injection her with h
      exact ⟨0, h.symm⟩
    · rw [if_neg h0] at her
      by_cases h1 : sumTokenValues (select_token_coins walletTokens parent token_type elig
            amount cap sa).2 < amount ∧
          (select_token_coins walletTokens parent token_type elig amount cap sa).2.length =
          (select_token_coins walletTokens parent token_type elig amount cap sa).1
      · rw [if_pos h1] at her
        injection her with h
        exact ⟨_, h.symm⟩
      · rw [if_neg h1] at her
        exact absurd her (by simp)
  · intro hamt er her
    simp only [select_token_coins_and_fee] at her
    by_cases h0 : sumTokenValues (select_token_coins walletTokens parent token_type elig
        amount cap sa).2 = 0
    · omega
    · rw [if_neg h0] at her
      by_cases h1 : sumTokenValues (select_token_coins walletTokens parent token_type elig
            amount cap sa).2 < amount ∧
          (select_token_coins walletTokens parent token_type elig amount cap sa).2.length =
          (select_token_coins walletTokens parent token_type elig amount cap sa).1
      · exact h1.1
      · rw [if_neg h1] at her
        exact absurd her (by simp)
  · intro cs total hok hlt
    simp only [select_token_coins_and_fee] at hok
    by_cases h0 : sumTokenValues (select_token_coins walletTokens parent token_type elig
        amount cap sa).2 = 0
    · rw [if_pos h0] at hok
      exact absurd hok (by simp)
    · rw [if_neg h0] at hok
      by_cases h1 : sumTokenValues (select_token_coins walletTokens parent token_type elig
            amount cap sa).2 < amount ∧
          (select_token_coins walletTokens parent token_type elig amount cap sa).2.length =
          (select_token_coins walletTokens parent token_type elig amount cap sa).1
      · rw [if_pos h1] at hok
        exact absurd hok (by simp)
      · rw [if_neg h1] at hok
        injection hok with hcs ht ha
        subst hcs; subst ht
        intro hlen
        exact h1 ⟨hlt, hlen⟩

/-- Witness for the amended C5 at a concrete covering state: token values
`[5, 30]`, amount 20, cap 5. -/
theorem select_token_coins_and_fee_amended_witness :
    (0 < sumTokenValues (select_token_coins exTokenPoolB 0 7 (fun _ => true)
        20 5 false).2 →
      20 ≤ sumTokenValues (select_token_coins exTokenPoolB 0 7 (fun _ => true)
        20 5 false).2 →
      select_token_coins_and_fee exTokenPoolB 0 7 (fun _ => true) 20 5 false =
        .ok (select_token_coins exTokenPoolB 0 7 (fun _ => true) 20 5 false).2
          (sumTokenValues (select_token_coins exTokenPoolB 0 7 (fun _ => true)
            20 5 false).2) 20) ∧
    (∀ er, select_token_coins_and_fee exTokenPoolB 0 7 (fun _ => true) 20 5 false =
        .err er → ∃ av, er = .notEnoughFunds av 20) ∧
    (0 < 20 →
      ∀ er, select_token_coins_and_fee exTokenPoolB 0 7 (fun _ => true) 20 5 false =
        .err er →
      sumTokenValues (select_token_coins exTokenPoolB 0 7 (fun _ => true)
        20 5 false).2 < 20) ∧
    (∀ cs total, select_token_coins_and_fee exTokenPoolB 0 7 (fun _ => true)
        20 5 false = .ok cs total 20 → total < 20 →
      cs.length ≠ (select_token_coins exTokenPoolB 0 7 (fun _ => true) 20 5 false).1) :=
  select_token_coins_and_fee_amended exTokenPoolB 0 7 (fun _ => true) 20 5 false

/-- Every coin surviving the locking loop is either untouched from the input
pool or tagged with the batch's history-record id. -/
theorem lockInputs_mem (logId : Nat) :
    ∀ (outputs : List OutputData) (ins : List (Nat × Option Nat × Nat))
      (outs1 : List OutputData) (deb : Nat),
      lockInputs logId outputs ins = some (outs1, deb) →
      ∀ o ∈ outs1, o ∈ outputs ∨ o.tx_log_entry = some logId := by
  intro outputs ins
  induction ins generalizing outputs with
  | nil =>
      intro outs1 deb hli o ho
      simp only [lockInputs, Option.some.injEq, Prod.mk.injEq] at hli
      rw [← hli.1] at ho
      exact Or.inl ho
  | cons i rest ih =>
      intro outs1 deb hli o ho
      simp only [lockInputs] at hli
      cases hfind : outputs.find? (fun o => o.key_id == i.1) with
      | none => rw [hfind] at hli; exact absurd hli (by simp)
      | some coin =>
          rw [hfind] at hli
          cases hrec : lockInputs logId
              (outputs.map fun o =>
                if o.key_id == i.1 then
                  { o with status := OutputStatus.Locked, tx_log_entry := some logId }
                else o) rest with
          | none => rw [hrec] at hli; exact absurd hli (by simp)
          | some od =>
              obtain ⟨outs, deb2⟩ := od
              rw [hrec] at hli
              simp only [Option.some.injEq, Prod.mk.injEq] at hli
              rcases ih _ outs deb2 hrec o (by rw [hli.1]; exact ho) with hmem | htag
              · obtain ⟨o2, ho2, hfo2⟩ := List.mem_map.mp hmem
                by_cases hk : (o2.key_id == i.1) = true
                · rw [if_pos hk] at hfo2
                  right; rw [← hfo2]
                · rw [if_neg (by simpa using hk)] at hfo2
                  left; rw [← hfo2]; exact ho2
              · exact Or.inr htag

/-- Token analogue of `lockInputs_mem`. -/
theorem lockTokenInputs_mem (logId : Nat) :
    ∀ (outputs : List TokenOutputData) (ins : List (Nat × Option Nat × Nat))
      (outs1 : List TokenOutputData) (deb : Nat),
      lockTokenInputs logId outputs ins = some (outs1, deb) →
      ∀ o ∈ outs1, o ∈ outputs ∨ o.tx_log_entry = some logId := by
  intro outputs ins
  induction ins generalizing outputs with
  | nil =>
      intro outs1 deb hli o ho
      simp only [lockTokenInputs, Option.some.injEq, Prod.mk.injEq] at hli
      rw [← hli.1] at ho
      exact Or.inl ho
  | cons i rest ih =>
      intro outs1 deb hli o ho
      simp only [lockTokenInputs] at hli
      cases hfind : outputs.find? (fun o => o.key_id == i.1) with
      | none => rw [hfind] at hli; exact absurd hli (by simp)
      | some coin =>
          rw [hfind] at hli
          cases hrec : lockTokenInputs logId
              (outputs.map fun o =>
                if o.key_id == i.1 then
                  { o with status := OutputStatus.Locked, tx_log_entry := some logId }
                else o) rest with
          | none => rw [hrec] at hli; exact absurd hli (by simp)
          | some od =>
              obtain ⟨outs, deb2⟩ := od
              rw [hrec] at hli
              simp only [Option.some.injEq, Prod.mk.injEq] at hli
              rcases ih _ outs deb2 hrec o (by rw [hli.1]; exact ho) with hmem | htag
              · obtain ⟨o2, ho2, hfo2⟩ := List.mem_map.mp hmem
                by_cases hk : (o2.key_id == i.1) = true
                · rw [if_pos hk] at hfo2
                  right; rw [← hfo2]
                · rw [if_neg (by simpa using hk)] at hfo2
                  left; rw [← hfo2]; exact ho2
              · exact Or.inr htag

/-- A registered input whose identifier no coin in the pool carries makes the
locking loop panic (`none`): `batch.get(..).unwrap()` on a missing coin. -/
theorem lockInputs_none_of_missing (logId : Nat) :
    ∀ (outputs : List OutputData) (ins : List (Nat × Option Nat × Nat)),
      (∃ i ∈ ins, ∀ o ∈ outputs, o.key_id ≠ i.1) →
      lockInputs logId outputs ins = none := by
  intro outputs ins
  induction ins generalizing outputs with
  | nil => intro h; obtain ⟨i, hi, _⟩ := h; simp at hi
  | cons j rest ih =>
      intro h
      obtain ⟨i, hi, hmiss⟩ := h
      simp only [lockInputs]
      rcases List.mem_cons.mp hi with rfl | hirest
      · have hfind : outputs.find? (fun o => o.key_id == i.1) = none := by
          rw [List.find?_eq_none]
          intro o ho
          simpa using hmiss o ho
        rw [hfind]
      · cases hfind : outputs.find? (fun o => o.key_id == j.1) with
        | none => rfl
        | some coin =>
            have hrec := ih
              (outputs.map fun o =>
                if o.key_id == j.1 then
                  { o with status := OutputStatus.Locked, tx_log_entry := some logId }
                else o)
              ⟨i, hirest, by
                intro o2 ho2
                obtain ⟨o, ho, hfo⟩ := List.mem_map.mp ho2
                by_cases hk : (o.key_id == j.1) = true
                · rw [if_pos hk] at hfo
                  rw [← hfo]
                  exact hmiss o ho
                · rw [if_neg (by simpa using hk)] at hfo
                  rw [← hfo]
                  exact hmiss o ho⟩
            rw [hrec]

/-- When every registered input is present in the pool, the locking loop
completes. -/
theorem lockInputs_isSome_of_present (logId : Nat) :
    ∀ (outputs : List OutputData) (ins : List (Nat × Option Nat × Nat)),
      (∀ i ∈ ins, ∃ o ∈ outputs, o.key_id = i.1) →
      (lockInputs logId outputs ins).isSome := by
  intro outputs ins
  induction ins generalizing outputs with
  | nil => intro _; simp [lockInputs]
  | cons j rest ih =>
      intro h
      obtain ⟨o, ho, hk⟩ := h j (by simp)
      simp only [lockInputs]
      have hfind : (outputs.find? (fun o => o.key_id == j.1)).isSome := by
        rw [List.find?_isSome]
        exact ⟨o, ho, by simpa using hk⟩
      obtain ⟨coin, hcoin⟩ := Option.isSome_iff_exists.mp hfind
      rw [hcoin]
      have hrec := ih
        (outputs.map fun o =>
          if o.key_id == j.1 then
            { o with status := OutputStatus.Locked, tx_log_entry := some logId }
          else o)
        (by
          intro i hi
          obtain ⟨o2, ho2, hk2⟩ := h i (List.mem_cons_of_mem j hi)
          by_cases hkk : (o2.key_id == j.1) = true
          · exact ⟨_, List.mem_map_of_mem _ ho2, by rw [if_pos hkk]; exact hk2⟩
          · exact ⟨_, List.mem_map_of_mem _ ho2, by rw [if_neg (by simpa using hkk)]; exact hk2⟩)
      obtain ⟨res, hres⟩ := Option.isSome_iff_exists.mp hrec
      rw [hres]
      obtain ⟨outs, deb⟩ := res
      simp

/-- Exhaustive description of a finalize run: a pre-commit stop (fault or
typed error) leaves only the initial state visible; otherwise the entire
batch becomes visible at once as the committed state, followed by the
post-commit raw-transaction store (or its failure). -/
theorem lock_tx_context_cases (calcCommit : Nat → Nat → Option Nat)
    (senderAddress : Nat → Nat) (w : WalletState) (slate : Slate)
    (current_height : Nat) (ctx : Context) (ov : Option Nat) :
    (∃ r, lock_tx_context calcCommit senderAddress w slate current_height ctx ov =
        ⟨[w], r⟩ ∧ (r = RunResult.fault ∨ ∃ e, r = RunResult.err e)) ∨
    (∃ c,
      (slate.tx = none ∧
        lock_tx_context calcCommit senderAddress w slate current_height ctx ov =
          ⟨[w, c], RunResult.err WalletError.generic⟩ ∨
       ∃ b, slate.tx = some b ∧
        lock_tx_context calcCommit senderAddress w slate current_height ctx ov =
          ⟨[w, c, { c with stored_txs := (slate.id, b) :: c.stored_txs }],
            RunResult.ok⟩) ∧
      ((slate.token_type = none ∧ ∃ outs1 deb pp,
          lockInputs w.next_log_id w.outputs ctx.inputs = some (outs1, deb) ∧
          buildPaymentProof senderAddress slate ctx = Except.ok pp ∧
          c = commitSentState calcCommit w slate current_height ctx ov pp outs1 deb) ∨
       (∃ tt outs1 deb touts1 tdeb pp, slate.token_type = some tt ∧
          lockInputs w.next_log_id w.outputs ctx.inputs = some (outs1, deb) ∧
          lockTokenInputs w.next_log_id w.token_outputs ctx.token_inputs =
            some (touts1, tdeb) ∧
          buildPaymentProof senderAddress slate ctx = Except.ok pp ∧
          c = commitTokenState calcCommit w slate tt current_height ctx ov pp
            outs1 deb touts1 tdeb))) := by
  cases htt : slate.token_type with
  | none =>
      simp only [lock_tx_context, htt]
      cases hli : lockInputs w.next_log_id w.outputs ctx.inputs with
      | none => exact Or.inl ⟨RunResult.fault, rfl, Or.inl rfl⟩
      | some od =>
          obtain ⟨outs1, deb⟩ := od
          cases hpp : buildPaymentProof senderAddress slate ctx with
          | error e => exact Or.inl ⟨RunResult.err e, rfl, Or.inr ⟨e, rfl⟩⟩
          | ok pp =>
              refine Or.inr ⟨commitSentState calcCommit w slate current_height ctx ov
                pp outs1 deb, ?_, Or.inl ⟨trivial, outs1, deb, pp, rfl, rfl, rfl⟩⟩
              simp only [finishRun]
              cases htx : slate.tx with
              | none => exact Or.inl ⟨rfl, rfl⟩
              | some b => exact Or.inr ⟨b, rfl, rfl⟩
  | some tt =>
      simp only [lock_tx_context, htt]
      cases hli : lockInputs w.next_log_id w.outputs ctx.inputs with
      | none => exact Or.inl ⟨RunResult.fault, rfl, Or.inl rfl⟩
      | some od =>
          obtain ⟨outs1, deb⟩ := od
          cases hlt : lockTokenInputs w.next_log_id w.token_outputs ctx.token_inputs with
          | none => exact Or.inl ⟨RunResult.fault, rfl, Or.inl rfl⟩
          | some tod =>
              obtain ⟨touts1, tdeb⟩ := tod
              cases hpp : buildPaymentProof senderAddress slate ctx with
              | error e => exact Or.inl ⟨RunResult.err e, rfl, Or.inr ⟨e, rfl⟩⟩
              | ok pp =>
                  refine Or.inr ⟨commitTokenState calcCommit w slate tt current_height
                    ctx ov pp outs1 deb touts1 tdeb, ?_,
                    Or.inr ⟨tt, outs1, deb, touts1, tdeb, pp, rfl, rfl, rfl, rfl, rfl⟩⟩
                  simp only [finishRun]
                  cases htx : slate.tx with
                  | none => exact Or.inl ⟨rfl, rfl⟩
                  | some b => exact Or.inr ⟨b, rfl, rfl⟩

theorem changeOutputRecords_tag (cc : Nat → Nat → Option Nat) (parent hh lid : Nat)
    (outs : List (Nat × Option Nat × Nat)) :
    ∀ o ∈ changeOutputRecords cc parent hh lid outs,
      o.tx_log_entry = some lid ∧ o.status = OutputStatus.Unconfirmed := by
  intro o ho
  obtain ⟨x, _, rfl⟩ := List.mem_map.mp ho
  exact ⟨rfl, rfl⟩

theorem tokenChangeRecords_tag (cc : Nat → Nat → Option Nat) (tt : Nat)
    (isIssue : Bool) (parent hh lid : Nat) (outs : List (Nat × Option Nat × Nat)) :
    ∀ o ∈ tokenChangeRecords cc tt isIssue parent hh lid outs,
      o.tx_log_entry = some lid ∧ o.status = OutputStatus.Unconfirmed := by
  intro o ho
  obtain ⟨x, _, rfl⟩ := List.mem_map.mp ho
  exact ⟨rfl, rfl⟩

/-- C1 is false as stated: the raw-transaction store runs after
`batch.commit()`, outside the batch, so the committed state — input locked,
history record written, but no stored transaction — is a visible
intermediate state that is neither the initial nor the final state: the
claimed all-or-nothing visibility over the full write set fails. -/
theorem lock_tx_context_atomicity_counterexample :
    (lock_tx_context (fun _ _ => none) (fun i => i) exW0 exSlateL 3 exCtxL none).result
      = RunResult.ok ∧
    (lock_tx_context (fun _ _ => none) (fun i => i) exW0 exSlateL 3
      exCtxL none).visible.length = 3 ∧
    ¬ (∀ s ∈ (lock_tx_context (fun _ _ => none) (fun i => i) exW0 exSlateL 3
          exCtxL none).visible,
        s = exW0 ∨
        s = (lock_tx_context (fun _ _ => none) (fun i => i) exW0 exSlateL 3
          exCtxL none).visible.getLastD exW0) :=
  ⟨by decide, by decide, by decide⟩

/-- C1 (amended): the batch writes of the finalize step — locking every
registered input, persisting every registered change output as
`Unconfirmed`, writing the single history record — are all-or-nothing:
every visible state of a run is the initial state, the committed state with
the entire batch applied, or that state plus the raw transaction bytes,
which the source stores after `batch.commit()` as a separate write keyed by
the slate id. A run stopped before the commit point (a fault or a pre-commit
typed error such as the payment-proof misconfiguration) leaves only the
initial state visible; and in every visible state, every coin of either
asset that is absent from the initial pool — locked by this call or
persisted as change — references by id a history record present in that
same state (no orphaned locks, no orphaned change outputs). -/
theorem lock_tx_context_atomic_amended (cc : Nat → Nat → Option Nat)
    (sa : Nat → Nat) (w : WalletState) (slate : Slate) (hh : Nat)
    (ctx : Context) (ov : Option Nat) :
    (∃ c, ∀ s ∈ (lock_tx_context cc sa w slate hh ctx ov).visible,
        s = w ∨ s = c ∨
        ∃ b, slate.tx = some b ∧
          s = { c with stored_txs := (slate.id, b) :: c.stored_txs }) ∧
    ((lock_tx_context cc sa w slate hh ctx ov).result = RunResult.fault ∨
      (lock_tx_context cc sa w slate hh ctx ov).result =
        RunResult.err WalletError.paymentProof →
      (lock_tx_context cc sa w slate hh ctx ov).visible = [w]) ∧
    (∀ s ∈ (lock_tx_context cc sa w slate hh ctx ov).visible,
      ∀ o ∈ s.outputs, o ∈ w.outputs ∨
        ∃ lid, o.tx_log_entry = some lid ∧
          ((∃ t ∈ s.tx_logs, t.id = lid) ∨ ∃ t ∈ s.token_tx_logs, t.id = lid)) ∧
    (∀ s ∈ (lock_tx_context cc sa w slate hh ctx ov).visible,
      ∀ o ∈ s.token_outputs, o ∈ w.token_outputs ∨
        ∃ lid, o.tx_log_entry = some lid ∧
          ((∃ t ∈ s.tx_logs, t.id = lid) ∨ ∃ t ∈ s.token_tx_logs, t.id = lid)) := by
  rcases lock_tx_context_cases cc sa w slate hh ctx ov with
    ⟨r, hrun, _⟩ | ⟨c, htx, hdesc⟩
  · rw [hrun]
    refine ⟨⟨w, ?_⟩, fun _ => rfl, ?_, ?_⟩
    · intro s hs
      simp only [List.mem_singleton] at hs
      exact Or.inl hs
    · intro s hs o ho
      simp only [List.mem_singleton] at hs
      subst hs
      exact Or.inl ho
    · intro s hs o ho
      simp only [List.mem_singleton] at hs
      subst hs
      exact Or.inl ho
  · -- facts about the committed state, uniform over both branches
    have hfacts :
        (∀ o ∈ c.outputs, o ∈ w.outputs ∨ o.tx_log_entry = some w.next_log_id) ∧
        (∀ o ∈ c.token_outputs, o ∈ w.token_outputs ∨
          o.tx_log_entry = some w.next_log_id) ∧
        ((∃ t ∈ c.tx_logs, t.id = w.next_log_id) ∨
          ∃ t ∈ c.token_tx_logs, t.id = w.next_log_id) := by
      rcases hdesc with ⟨_, outs1, deb, pp, hli, _, hc⟩ |
        ⟨tt, outs1, deb, touts1, tdeb, pp, _, hli, hlt, _, hc⟩
      · subst hc
        refine ⟨?_, ?_, Or.inl ⟨_, List.mem_cons_self _ _, rfl⟩⟩
        · intro o ho
          rcases List.mem_append.mp ho with h1 | h2
          · exact lockInputs_mem w.next_log_id w.outputs ctx.inputs outs1 deb hli o h1
          · exact Or.inr (changeOutputRecords_tag cc ctx.parent_key_id hh
              w.next_log_id ctx.outputs o h2).1
        · intro o ho
          exact Or.inl ho
      · subst hc
        refine ⟨?_, ?_, Or.inr ⟨_, List.mem_cons_self _ _, rfl⟩⟩
        · intro o ho
          rcases List.mem_append.mp ho with h1 | h2
          · exact lockInputs_mem w.next_log_id w.outputs ctx.inputs outs1 deb hli o h1
          · exact Or.inr (changeOutputRecords_tag cc ctx.parent_key_id hh
              w.next_log_id ctx.outputs o h2).1
        · intro o ho
          rcases List.mem_append.mp ho with h1 | h2
          · exact lockTokenInputs_mem w.next_log_id w.token_outputs ctx.token_inputs
              touts1 tdeb hlt o h1
          · exact Or.inr (tokenChangeRecords_tag cc tt (ctx.token_inputs.length = 0)
              ctx.parent_key_id hh w.next_log_id ctx.token_outputs o h2).1
    obtain ⟨hco, hcto, hclog⟩ := hfacts
    have hst : ∀ b,
        ({ c with stored_txs := (slate.id, b) :: c.stored_txs } : WalletState).outputs =
          c.outputs ∧
        ({ c with stored_txs := (slate.id, b) :: c.stored_txs } : WalletState).token_outputs =
          c.token_outputs ∧
        ({ c with stored_txs := (slate.id, b) :: c.stored_txs } : WalletState).tx_logs =
          c.tx_logs ∧
        ({ c with stored_txs := (slate.id, b) :: c.stored_txs } : WalletState).token_tx_logs =
          c.token_tx_logs := fun _ => ⟨rfl, rfl, rfl, rfl⟩
    rcases htx with ⟨htxn, hrun⟩ | ⟨b, htxs, hrun⟩
    · rw [hrun]
      refine ⟨⟨c, ?_⟩, ?_, ?_, ?_⟩
      · intro s hs
        rcases List.mem_cons.mp hs with rfl | hs2
        · exact Or.inl rfl
        · rcases List.mem_cons.mp hs2 with rfl | hs3
          · exact Or.inr (Or.inl rfl)
          · simp at hs3
      · intro habs
        rcases habs with h1 | h1 <;> exact absurd h1 (by simp)
      · intro s hs o ho
        rcases List.mem_cons.mp hs with rfl | hs2
        · exact Or.inl ho
        · rcases List.mem_cons.mp hs2 with rfl | hs3
          · rcases hco o ho with hmem | htag
            · exact Or.inl hmem
            · exact Or.inr ⟨w.next_log_id, htag, hclog⟩
          · simp at hs3
      · intro s hs o ho
        rcases List.mem_cons.mp hs with rfl | hs2
        · exact Or.inl ho
        · rcases List.mem_cons.mp hs2 with rfl | hs3
          · rcases hcto o ho with hmem | htag
            · exact Or.inl hmem
            · exact Or.inr ⟨w.next_log_id, htag, hclog⟩
          · simp at hs3
    · rw [hrun]
      obtain ⟨hsto, hstto, hstl, hsttl⟩ := hst b
      refine ⟨⟨c, ?_⟩, ?_, ?_, ?_⟩
      · intro s hs
        rcases List.mem_cons.mp hs with rfl | hs2
        · exact Or.inl rfl
        · rcases List.mem_cons.mp hs2 with rfl | hs3
          · exact Or.inr (Or.inl rfl)
          · rcases List.mem_cons.mp hs3 with rfl | hs4
            · exact Or.inr (Or.inr ⟨b, htxs, rfl⟩)
            · simp at hs4
      · intro habs
        rcases habs with h1 | h1 <;> exact absurd h1 (by simp)
      · intro s hs o ho
        rcases List.mem_cons.mp hs with rfl | hs2
        · exact Or.inl ho
        · rcases List.mem_cons.mp hs2 with rfl | hs3
          · rcases hco o ho with hmem | htag
            · exact Or.inl hmem
            · exact Or.inr ⟨w.next_log_id, htag, hclog⟩
          · rcases List.mem_cons.mp hs3 with rfl | hs4
            · rw [hsto] at ho
              rcases hco o ho with hmem | htag
              · exact Or.inl hmem
              · refine Or.inr ⟨w.next_log_id, htag, ?_⟩
                rw [hstl, hsttl]
                exact hclog
            · simp at hs4
      · intro s hs o ho
        rcases List.mem_cons.mp hs with rfl | hs2
        · exact Or.inl ho
        · rcases List.mem_cons.mp hs2 with rfl | hs3
          · rcases hcto o ho with hmem | htag
            · exact Or.inl hmem
            · exact Or.inr ⟨w.next_log_id, htag, hclog⟩
          · rcases List.mem_cons.mp hs3 with rfl | hs4
            · rw [hstto] at ho
              rcases hcto o ho with hmem | htag
              · exact Or.inl hmem
              · refine Or.inr ⟨w.next_log_id, htag, ?_⟩
                rw [hstl, hsttl]
                exact hclog
            · simp at hs4

/-- Witness for the amended C1: a context that registers a missing coin
faults pre-commit and leaves only the initial state visible. -/
theorem lock_tx_context_atomic_amended_witness :
    (lock_tx_context (fun _ _ => none) (fun i => i) exW0 exSlateL 3
      exCtxMissing none).visible = [exW0] :=
  (lock_tx_context_atomic_amended (fun _ _ => none) (fun i => i) exW0 exSlateL 3
    exCtxMissing none).2.1 (Or.inl (by decide))

/-- C8: in every finalize run on a secondary-asset build that reaches the
commit, exactly one token history record is written (and no primary record),
and its kind depends solely on the number of registered token inputs: zero
yields `TokenIssue`, one or more yields `TokenTxSent`. -/
theorem lock_tx_context_token_record (cc : Nat → Nat → Option Nat) (sa : Nat → Nat)
    (w : WalletState) (slate : Slate) (hh : Nat) (ctx : Context) (ov : Option Nat)
    (tt : Nat) (htt : slate.token_type = some tt) :
    ∀ s ∈ (lock_tx_context cc sa w slate hh ctx ov).visible,
      s = w ∨
      (s.tx_logs = w.tx_logs ∧
        ∃ t, s.token_tx_logs = t :: w.token_tx_logs ∧
          (ctx.token_inputs.length = 0 →
            t.tx_type = TokenTxLogEntryType.TokenIssue) ∧
          (ctx.token_inputs.length ≠ 0 →
            t.tx_type = TokenTxLogEntryType.TokenTxSent)) := by
  rcases lock_tx_context_cases cc sa w slate hh ctx ov with
    ⟨r, hrun, _⟩ | ⟨c, htx, hdesc⟩
  · rw [hrun]
    intro s hs
    simp only [List.mem_singleton] at hs
    exact Or.inl hs
  · have hc2 :
        c.tx_logs = w.tx_logs ∧
        ∃ t, c.token_tx_logs = t :: w.token_tx_logs ∧
          (ctx.token_inputs.length = 0 →
            t.tx_type = TokenTxLogEntryType.TokenIssue) ∧
          (ctx.token_inputs.length ≠ 0 →
            t.tx_type = TokenTxLogEntryType.TokenTxSent) := by
      rcases hdesc with ⟨httn, _⟩ | ⟨tt2, outs1, deb, touts1, tdeb, pp, _, _, _, _, hc⟩
      · rw [htt] at httn
        exact absurd httn (by simp)
      · subst hc
        refine ⟨rfl, mkTokenSentLog slate tt2 ctx hh w.next_log_id ov pp deb tdeb,
          rfl, ?_, ?_⟩
        · intro hz
          simp only [mkTokenSentLog, hz, if_pos]
        · intro hnz
          simp only [mkTokenSentLog]
          rw [if_neg hnz]
    rcases htx with ⟨_, hrun⟩ | ⟨b, _, hrun⟩ <;> rw [hrun] <;> intro s hs
    · rcases List.mem_cons.mp hs with rfl | hs2
      · exact Or.inl rfl
      · rcases List.mem_cons.mp hs2 with rfl | hs3
        · exact Or.inr hc2
        · simp at hs3
    · rcases List.mem_cons.mp hs with rfl | hs2
      · exact Or.inl rfl
      · rcases List.mem_cons.mp hs2 with rfl | hs3
        · exact Or.inr hc2
        · rcases List.mem_cons.mp hs3 with rfl | hs4
          · exact Or.inr hc2
          · simp at hs4

/-- Witness for C8 at a concrete issue build (no token inputs): the committed
state holds exactly one new token record, of the `TokenIssue` kind. -/
theorem lock_tx_context_token_record_witness :
    (lock_tx_context (fun _ _ => none) (fun i => i) exWEmpty exSlateT 3 exCtxT
        none).visible.getD 1 exWEmpty = exWEmpty ∨
    (((lock_tx_context (fun _ _ => none) (fun i => i) exWEmpty exSlateT 3 exCtxT
        none).visible.getD 1 exWEmpty).tx_logs = exWEmpty.tx_logs ∧
      ∃ t, ((lock_tx_context (fun _ _ => none) (fun i => i) exWEmpty exSlateT 3 exCtxT
          none).visible.getD 1 exWEmpty).token_tx_logs = t :: exWEmpty.token_tx_logs ∧
        (exCtxT.token_inputs.length = 0 →
          t.tx_type = TokenTxLogEntryType.TokenIssue) ∧
        (exCtxT.token_inputs.length ≠ 0 →
          t.tx_type = TokenTxLogEntryType.TokenTxSent)) :=
  lock_tx_context_token_record (fun _ _ => none) (fun i => i) exWEmpty exSlateT 3
    exCtxT none 7 rfl _ (by decide)

/-- C9 is false as stated: a registered input that is missing from the
backend makes `lock_tx_context` panic (`batch.get(..).unwrap()`), and a
failed child-key allocation makes the change-building loop panic
(`next_child(..).unwrap()`) — unconditional process faults, not typed error
results. -/
theorem backend_unwrap_counterexample :
    (lock_tx_context (fun _ _ => none) (fun i => i) exW0 exSlateL 3 exCtxMissing
      none).result = RunResult.fault ∧
    inputs_and_change [⟨0, 9, 9, none, none, 5, .Unspent, 0, 0, false, none⟩]
      (fun _ => none) 0 0 1 false = none :=
  ⟨by decide, by decide⟩

/-- C9 (amended): collaborator failures surfaced through `?` propagate as
typed errors — the payment-proof misconfiguration surfaces as the typed
`PaymentProof` error with no visible effect — but the two cited lookups are
unchecked faults, not typed failures: any registered input missing from the
backend makes the finalize step panic (with no visible effect, the batch
being uncommitted), and a failed next-child allocation makes the
change-building step panic. -/
theorem backend_faults_amended (cc : Nat → Nat → Option Nat) (sa : Nat → Nat)
    (w : WalletState) (slate : Slate) (hh : Nat) (ctx : Context) (ov : Option Nat)
    (nextChild : Nat → Option Nat) (coins : List OutputData)
    (amount fee n : Nat) (inc : Bool) :
    ((∃ i ∈ ctx.inputs, ∀ o ∈ w.outputs, o.key_id ≠ i.1) →
      (lock_tx_context cc sa w slate hh ctx ov).result = RunResult.fault ∧
      (lock_tx_context cc sa w slate hh ctx ov).visible = [w]) ∧
    (slate.token_type = none →
      (∀ i ∈ ctx.inputs, ∃ o ∈ w.outputs, o.key_id = i.1) →
      slate.payment_proof ≠ none →
      ctx.payment_proof_derivation_index = none →
      (lock_tx_context cc sa w slate hh ctx ov).result =
        RunResult.err WalletError.paymentProof ∧
      (lock_tx_context cc sa w slate hh ctx ov).visible = [w]) ∧
    (0 < n → nextChild 0 = none → amount + fee < sumValues coins →
      (sumValues coins - amount - fee) / n ≠ 0 →
      inputs_and_change coins nextChild amount fee n inc = none) := by
  refine ⟨?_, ?_, ?_⟩
  · intro hmiss
    have hnone := lockInputs_none_of_missing w.next_log_id w.outputs ctx.inputs hmiss
    cases htt : slate.token_type with
    | none =>
        simp only [lock_tx_context, htt, hnone]
        exact ⟨by trivial, by trivial⟩
    | some tt =>
        simp only [lock_tx_context, htt, hnone]
        exact ⟨by trivial, by trivial⟩
  · intro htt hpres hppr hidx
    have hsome := lockInputs_isSome_of_present w.next_log_id w.outputs ctx.inputs hpres
    obtain ⟨od, hod⟩ := Option.isSome_iff_exists.mp hsome
    obtain ⟨outs1, deb⟩ := od
    obtain ⟨p, hp⟩ := Option.ne_none_iff_exists.mp hppr
    have hpp : buildPaymentProof sa slate ctx = Except.error WalletError.paymentProof := by
      simp only [buildPaymentProof, ← hp, hidx]
    simp only [lock_tx_context, htt, hod, hpp]
    exact ⟨by trivial, by trivial⟩
  · intro hn hnc0 hlt hpart
    obtain ⟨m, rfl⟩ := Nat.exists_eq_add_of_le hn
    simp only [inputs_and_change]
    rw [if_neg (by omega), if_neg (by omega), if_neg hpart]
    have hrange : List.range (1 + m) = 0 :: List.map Nat.succ (List.range m) := by
      rw [Nat.add_comm]
      exact List.range_succ_eq_map m
    rw [hrange]
    simp only [changeOutputsFor, hnc0]

/-- Witness for the amended C9: the missing-coin fault, the typed
payment-proof error, and the allocation-failure fault, each at a concrete
input. -/
theorem backend_faults_amended_witness :
    ((lock_tx_context (fun _ _ => none) (fun i => i) exW0 exSlateL 3 exCtxMissing
        none).result = RunResult.fault ∧
      (lock_tx_context (fun _ _ => none) (fun i => i) exW0 exSlateL 3 exCtxMissing
        none).visible = [exW0]) ∧
    inputs_and_change [⟨0, 9, 9, none, none, 5, .Unspent, 0, 0, false, none⟩]
      (fun _ => none) 0 0 1 false = none :=
  ⟨(backend_faults_amended (fun _ _ => none) (fun i => i) exW0 exSlateL 3
      exCtxMissing none (fun _ => none)
      [⟨0, 9, 9, none, none, 5, .Unspent, 0, 0, false, none⟩] 0 0 1 false).1
      (by decide),
    (backend_faults_amended (fun _ _ => none) (fun i => i) exW0 exSlateL 3
      exCtxMissing none (fun _ => none)
      [⟨0, 9, 9, none, none, 5, .Unspent, 0, 0, false, none⟩] 0 0 1 false).2.2
      (by decide) (by decide) (by decide) (by decide)⟩

theorem ttlOpt_eq_ite (n : Nat) :
    ttlOpt n = if n = 0 then none else some n := by
  cases n with
  | zero => rfl
  | succ m => rfl

/-- C10: every history record written by the finalize step and by the
recipient build carries a time-to-live cutoff that is `none` exactly when
the slate's `ttl_cutoff_height` is 0 and `some n` for every non-zero `n`. -/
theorem history_ttl_cutoff (cc : Nat → Nat → Option Nat) (sa : Nat → Nat)
    (nextKey : Option Nat) (w w2 : WalletState) (slate : Slate) (hh h2 : Nat)
    (ctx : Context) (ov : Option Nat) (parent : Nat) :
    (∀ s ∈ (lock_tx_context cc sa w slate hh ctx ov).visible,
      (∀ t, s.tx_logs = t :: w.tx_logs →
        t.ttl_cutoff_height = if slate.ttl_cutoff_height = 0 then none
          else some slate.ttl_cutoff_height) ∧
      (∀ t, s.token_tx_logs = t :: w.token_tx_logs →
        t.ttl_cutoff_height = if slate.ttl_cutoff_height = 0 then none
          else some slate.ttl_cutoff_height)) ∧
    (∀ t, (build_recipient_output cc nextKey w2 slate h2 parent).tx_entry = some t →
      t.ttl_cutoff_height = if slate.ttl_cutoff_height = 0 then none
        else some slate.ttl_cutoff_height) ∧
    (∀ t, (build_recipient_output cc nextKey w2 slate h2 parent).token_entry = some t →
      t.ttl_cutoff_height = if slate.ttl_cutoff_height = 0 then none
        else some slate.ttl_cutoff_height) := by
  refine ⟨?_, ?_, ?_⟩
  · rcases lock_tx_context_cases cc sa w slate hh ctx ov with
      ⟨r, hrun, _⟩ | ⟨c, htx, hdesc⟩
    · rw [hrun]
      intro s hs
      simp only [List.mem_singleton] at hs
      subst hs
      constructor
      · intro t ht
        have hlen := congrArg List.length ht
        simp at hlen
      · intro t ht
        have hlen := congrArg List.length ht
        simp at hlen
    · have hc2 :
          (∀ t, c.tx_logs = t :: w.tx_logs →
            t.ttl_cutoff_height = if slate.ttl_cutoff_height = 0 then none
              else some slate.ttl_cutoff_height) ∧
          (∀ t, c.token_tx_logs = t :: w.token_tx_logs →
            t.ttl_cutoff_height = if slate.ttl_cutoff_height = 0 then none
              else some slate.ttl_cutoff_height) := by
        rcases hdesc with ⟨_, outs1, deb, pp, _, _, hc⟩ |
          ⟨tt2, outs1, deb, touts1, tdeb, pp, _, _, _, _, hc⟩
        · subst hc
          constructor
          · intro t ht
            have h2 := (List.cons.injEq _ _ _ _).mp ht
            rw [← h2.1, ← ttlOpt_eq_ite]
            rfl
          · intro t ht
            have hlen := congrArg List.length ht
            simp [commitSentState] at hlen
        · subst hc
          constructor
          · intro t ht
            have hlen := congrArg List.length ht
            simp [commitTokenState] at hlen
          · intro t ht
            have h2 := (List.cons.injEq _ _ _ _).mp ht
            rw [← h2.1, ← ttlOpt_eq_ite]
            rfl
      have hwvac :
          (∀ t, w.tx_logs = t :: w.tx_logs →
            t.ttl_cutoff_height = if slate.ttl_cutoff_height = 0 then none
              else some slate.ttl_cutoff_height) ∧
          (∀ t, w.token_tx_logs = t :: w.token_tx_logs →
            t.ttl_cutoff_height = if slate.ttl_cutoff_height = 0 then none
              else some slate.ttl_cutoff_height) := by
        constructor
        · intro t ht
          have hlen := congrArg List.length ht
          simp at hlen
        · intro t ht
          have hlen := congrArg List.length ht
          simp at hlen
      rcases htx with ⟨_, hrun⟩ | ⟨b, _, hrun⟩ <;> rw [hrun] <;> intro s hs
      · rcases List.mem_cons.mp hs with rfl | hs2
        · exact hwvac
        · rcases List.mem_cons.mp hs2 with rfl | hs3
          · exact hc2
          · simp at hs3
      · rcases List.mem_cons.mp hs with rfl | hs2
        · exact hwvac
        · rcases List.mem_cons.mp hs2 with rfl | hs3
          · exact hc2
          · rcases List.mem_cons.mp hs3 with rfl | hs4
            · exact hc2
            · simp at hs4
  · intro t ht
    cases hnk : nextKey with
    | none =>
        simp only [build_recipient_output, hnk] at ht
        exact Option.noConfusion ht
    | some key =>
        cases htt : slate.token_type with
        | some tt =>
            simp only [build_recipient_output, hnk, htt] at ht
            exact Option.noConfusion ht
        | none =>
            simp only [build_recipient_output, hnk, htt, Option.some.injEq] at ht
            rw [← ht, ← ttlOpt_eq_ite]
  · intro t ht
    cases hnk : nextKey with
    | none =>
        simp only [build_recipient_output, hnk] at ht
        exact Option.noConfusion ht
    | some key =>
        cases htt : slate.token_type with
        | none =>
            simp only [build_recipient_output, hnk, htt] at ht
            exact Option.noConfusion ht
        | some tt =>
            simp only [build_recipient_output, hnk, htt, Option.some.injEq] at ht
            rw [← ht, ← ttlOpt_eq_ite]

/-- Witness for C10: the concrete recipient build for a slate with ttl 9
writes its record with ttl cutoff `some 9`. -/
theorem history_ttl_cutoff_witness :
    (build_recipient_output (fun _ _ => none) (some 42) exWEmpty exSlateR 3
      0).tx_entry = some exEntryR ∧
    exEntryR.ttl_cutoff_height = if exSlateR.ttl_cutoff_height = 0 then none
      else some exSlateR.ttl_cutoff_height :=
  ⟨by decide,
    (history_ttl_cutoff (fun _ _ => none) (fun i => i) (some 42) exWEmpty exWEmpty
      exSlateR 3 3 exCtxL none 0).2.1 exEntryR (by decide)⟩

/-- Witness for C3 at the spec's example: values `[10,20,30,50]`, target 45. -/
theorem select_from_shortest_covering_witness :
    (select_from 45 false exCoins = none ↔ sumValues exCoins < 45) ∧
    (45 ≤ sumValues exCoins →
      ∃ k, k ≤ exCoins.length ∧
        select_from 45 false exCoins = some (exCoins.take k) ∧
        45 ≤ sumValues (exCoins.take k) ∧
        ∀ j, j < k → sumValues (exCoins.take j) < 45) :=
  select_from_shortest_covering exCoins 45 (by decide)

end VcashSelection
